import Mathlib

set_option maxHeartbeats 1000000
set_option linter.unusedVariables false
set_option maxRecDepth 100000

namespace OpenapiAgentTools

/-- JSON-like values, modelling the Python dicts, lists and scalars the
repository manipulates.  Objects are insertion-ordered association lists,
mirroring Python dict iteration order (`dict` preserves insertion order). -/
inductive Json where
  | null : Json
  | bool : Bool → Json
  | num : Int → Json
  | str : String → Json
  | arr : List Json → Json
  | obj : List (String × Json) → Json

/-- First-match association-list lookup, modelling Python `d[k]` / `d.get(k)`
on a dict. -/
def jlookup : List (String × Json) → String → Option Json
  | [], _ => none
  | (k, v) :: rest, key => if k = key then some v else jlookup rest key

/-- Python `k in d` on a dict. -/
def hasKey (kvs : List (String × Json)) (key : String) : Bool :=
  (jlookup kvs key).isSome

/-- Python dict assignment `d[k] = v`: overwrite in place when the key already
exists (keeping its position), append at the end otherwise. -/
def setKey : List (String × Json) → String → Json → List (String × Json)
  | [], key, v => [(key, v)]
  | (k, w) :: rest, key, v =>
      if k = key then (k, v) :: rest else (k, w) :: setKey rest key v

/-- ASCII-faithful model of Python `str.lower` (the repository only lowercases
HTTP method names). -/
def lowerStr (s : String) : String := String.mk (s.toList.map Char.toLower)

/-- ASCII-faithful model of Python `str.upper`. -/
def upperStr (s : String) : String := String.mk (s.toList.map Char.toUpper)

/-- Python `str.replace(a, b)` for one-character arguments. -/
def mapReplaceChar (a b : Char) (s : String) : String :=
  String.mk (s.toList.map fun c => if c = a then b else c)

/-- Python `str.replace(a, "")` for a one-character pattern. -/
def removeChar (a : Char) (s : String) : String :=
  String.mk (s.toList.filter fun c => c ≠ a)

/-- Python `str.startswith`. -/
def strStartsWith (s p : String) : Bool := p.toList.isPrefixOf s.toList

/-- Python `str.split(sep)` for a one-character separator, on character
lists: empty parts are kept and the result is never empty. -/
def splitOnChar (c : Char) : List Char → List (List Char)
  | [] => [[]]
  | x :: rest =>
      let r := splitOnChar c rest
      if x = c then [] :: r
      else match r with
        | h :: t => (x :: h) :: t
        | [] => [[x]]

/-- Python `name.split('_')`. -/
def splitUnderscore (s : String) : List String :=
  (splitOnChar '_' s.toList).map String.mk

/-- Python slicing `s[:n]` (by code points, like Python). -/
def strTake (s : String) (n : Nat) : String := String.mk (s.toList.take n)

/-- Python truthiness of a JSON value (`if value:`). -/
def jsonTruthy : Json → Bool
  | .null => false
  | .bool b => b
  | .num n => n != 0
  | .str s => s != ""
  | .arr xs => !xs.isEmpty
  | .obj kvs => !kvs.isEmpty

/-- The merge step of the composition branch of `process_schema`
(parse_openapi.py, lines 211-215): copy the normalized first option's entries
into the result dict and set the suffixed description from the original
fragment's description (which must be a string or absent, else the Python
`+` raises). -/
def mergeFirstOption (firstOption : Json) (origDesc : Option Json)
    (acc : List (String × Json)) : Option (List (String × Json)) :=
  match firstOption with
  | .obj opts => do
      let d ← (match origDesc with
              | none => some ""
              | some (.str s) => some s
              | some _ => none)
      pure (setKey (opts.foldl (fun a kv => setKey a kv.1 kv.2) acc) "description"
        (.str (d ++ " (Simplified from multiple options)")))
  | _ => none

mutual

/-- Model of `process_schema` (src/openapi_agent_tools/parse_openapi.py,
lines 177-229): the generation-time Schema Normalizer.  Returns `none` where
the Python raises: called on a non-dict (`schema.items()` fails), or a
composition branch whose original `description` is not a string
(`str + non-str` fails), or a nested crash. -/
def process_schema : Json → Option Json
  | .obj kvs => do
      let r ← processEntries kvs (jlookup kvs "description") []
      let r := if hasKey r "type" then r else setKey r "type" (.str "object")
      let r := if hasKey r "description" then r else
        setKey r "description" (.str "No description available")
      pure (.obj r)
  | _ => none
termination_by j => (sizeOf j, 1)

/-- The `for key, value in schema.items()` loop of `process_schema`; `origDesc`
is the original fragment's `description` entry (read by the composition
branch via `schema.get("description", "")`) and `acc` is the `result` dict
built so far. -/
def processEntries : List (String × Json) → Option Json → List (String × Json) →
    Option (List (String × Json))
  | [], _, acc => some acc
  | (key, value) :: rest, origDesc, acc => do
      let acc' ← processEntry key value origDesc acc
      processEntries rest origDesc acc'
termination_by l _ _ => (sizeOf l, 2)

/-- One iteration of the `process_schema` key loop, following the Python
branch order: `$ref` dropped; `properties` with a dict value processed
key-by-key; `items` and any other dict value processed recursively;
`anyOf`/`oneOf`/`allOf` (necessarily non-dict here) simplified to their first
element; everything else copied as is. -/
def processEntry (key : String) (value : Json) (origDesc : Option Json)
    (acc : List (String × Json)) : Option (List (String × Json)) :=
  if key = "$ref" then some acc
  else
    match value with
    | .obj sub =>
        if key = "properties" then do
          let props ← processProps sub []
          pure (setKey acc key (.obj props))
        else do
          let v ← process_schema (.obj sub)
          pure (setKey acc key v)
    | .arr (first :: more) =>
        if key = "anyOf" ∨ key = "oneOf" ∨ key = "allOf" then do
          let firstOption ← process_schema first
          mergeFirstOption firstOption origDesc acc
        else
          some (setKey acc key (.arr (first :: more)))
    | _ =>
        if key = "anyOf" ∨ key = "oneOf" ∨ key = "allOf" then
          some acc
        else
          some (setKey acc key value)
termination_by (sizeOf value, 3)

/-- The `properties` sub-loop of `process_schema`: each property value is
normalized and assigned into a fresh dict. -/
def processProps : List (String × Json) → List (String × Json) →
    Option (List (String × Json))
  | [], acc => some acc
  | (name, sub) :: rest, acc => do
      let v ← process_schema sub
      processProps rest (setKey acc name v)
termination_by l _ => (sizeOf l, 2)

end

/-- The test `isinstance(item, dict) and item.get("type") == "null"` from the
anyOf scan in `fix_schema_references`. -/
def isNullTyped : Json → Bool
  | .obj kvs =>
      match jlookup kvs "type" with
      | some (.str s) => s == "null"
      | _ => false
  | _ => false

mutual

/-- Model of `fix_schema_references` (src/openapi_agent_tools/schema_validator.py,
lines 10-66): the Validator's recursive schema repair.  Non-dicts are returned
unchanged; `none` models the `AttributeError` raised when a matched nullable
anyOf has a truthy non-dict as its non-null element (`type_obj.items()`). -/
def fix_schema_references : Json → Option Json
  | .obj kvs => do
      let r ← fixEntries kvs []
      pure (.obj r)
  | j => some j
termination_by j => (sizeOf j, 1)

/-- The `for key, value in schema.items()` loop of `fix_schema_references`,
with `acc` the `result` dict built so far. -/
def fixEntries : List (String × Json) → List (String × Json) →
    Option (List (String × Json))
  | [], acc => some acc
  | (key, value) :: rest, acc => do
      let acc' ← fixEntry key value acc
      fixEntries rest acc'
termination_by l _ => (sizeOf l, 2)

/-- One iteration of the `fix_schema_references` key loop: components `$ref`s
are dropped, a 2-element `anyOf` goes through the nullable-collapse scan (and
is dropped whole when the one-null pattern does not match), nested dicts are
repaired recursively, lists element-wise, scalars copied. -/
def fixEntry (key : String) (value : Json) (acc : List (String × Json)) :
    Option (List (String × Json)) :=
  match value with
  | .str s =>
      if key = "$ref" ∧ strStartsWith s "#/components/" then some acc
      else some (setKey acc key (.str s))
  | .obj sub => do
      let r ← fixEntries sub []
      pure (setKey acc key (.obj r))
  | .arr xs =>
      if h : key = "anyOf" ∧ xs.length = 2 then
        match xs with
        | [a, b] =>
            -- the scan: `has_null` is set by any null-typed dict element,
            -- `type_obj` ends up as the last non-null element
            if isNullTyped a || isNullTyped b then
              if !(isNullTyped b) then collapseNullable b acc
              else if !(isNullTyped a) then collapseNullable a acc
              else some acc      -- both null-typed: `type_obj` stays None
            else some acc        -- no null element: the anyOf key is dropped
      else do
        let ys ← fixList xs
        pure (setKey acc key (.arr ys))
  | v => some (setKey acc key v)
termination_by (sizeOf value, 3)

/-- The `if has_null and type_obj:` body of the anyOf scan, given the non-null
element `t`.  A falsy `t` (empty dict, empty string, zero, ...) fails the
truthiness test and the whole anyOf key is dropped. -/
def collapseNullable (t : Json) (acc : List (String × Json)) :
    Option (List (String × Json)) :=
  if jsonTruthy t then
    match t with
    | .obj tkvs =>
        if hasKey tkvs "$ref" then
          some (setKey acc "type" (.arr [.str "string", .str "null"]))
        else collapseEntries tkvs acc
    | _ => none          -- `type_obj.items()` raises on a non-dict
  else some acc
termination_by (sizeOf t, 3)

/-- The `for k, v in type_obj.items()` copy loop of the nullable collapse:
`type` is rewritten to `[v, "null"]`, every other value is repaired. -/
def collapseEntries : List (String × Json) → List (String × Json) →
    Option (List (String × Json))
  | [], acc => some acc
  | (k, v) :: rest, acc =>
      if k = "type" then
        collapseEntries rest (setKey acc "type" (.arr [v, .str "null"]))
      else do
        let fv ← fix_schema_references v
        collapseEntries rest (setKey acc k fv)
termination_by l _ => (sizeOf l, 2)

/-- The element-wise list repair `[fix_schema_references(item) for item in value]`. -/
def fixList : List Json → Option (List Json)
  | [] => some []
  | x :: rest => do
      let fx ← fix_schema_references x
      let frest ← fixList rest
      pure (fx :: frest)
termination_by l => (sizeOf l, 2)

end

/-- The Python local `prefix = '_'.join(parts[:3])` of the name repair. -/
def preOf (s : String) : String := String.intercalate "_" ((splitUnderscore s).take 3)

/-- The Python local `suffix = parts[-1]` of the name repair. -/
def lastOf (s : String) : String := (splitUnderscore s).getLastD ""

/-- The Python local
`remaining_chars = 64 - len(prefix) - len(suffix) - 2` of the name repair
(a Python int: may be negative). -/
def remainingOf (s : String) : Int :=
  64 - ((preOf s).length : Int) - ((lastOf s).length : Int) - 2

/-- The name-length repair of `validate_and_fix_tool` (schema_validator.py,
lines 91-114), i.e. the body of `if len(fixed_tool["name"]) > 64:` for a
string name. -/
def fixLongName (original : String) : String :=
  let parts := splitUnderscore original
  if parts.length ≥ 3 then
    if remainingOf original > 0 then
      let middle := String.intercalate "_" ((parts.drop 3).dropLast)
      let middle := if (middle.length : Int) > remainingOf original then
                      strTake middle (remainingOf original).toNat
                    else middle
      preOf original ++ "_" ++ middle ++ "_" ++ lastOf original
    else
      strTake original 60 ++ "..."
  else
    strTake original 60 ++ "..."

/-- The `input_schema` type default of `validate_and_fix_tool`:
`if "type" not in input_schema: input_schema["type"] = "object"`. -/
def ensureSchemaType (skvs : List (String × Json)) : List (String × Json) :=
  if hasKey skvs "type" then skvs else setKey skvs "type" (.str "object")

/-- Model of `validate_and_fix_tool` (schema_validator.py, lines 68-131).
Explicit `raise ValueError` sites keep their exact message; the messages of
type errors raised by the dynamic operations (`.replace` / `len()` / `.split`
on ill-typed values, a crash inside `fix_schema_references`) are summarised,
since no claim observes their text.  A non-dict tool always fails before
producing a result (field containment or indexing raises, or the
missing-field `ValueError` fires); it is modelled as an immediate error. -/
def validate_and_fix_tool (tool : Json) : Except String Json := do
  match tool with
  | .obj kvs0 =>
      -- required-field loop, in order: name, description, input_schema
      if !hasKey kvs0 "name" then throw "Tool is missing required field: name"
      let kvs1 ←
        if hasKey kvs0 "description" then pure kvs0
        else
          match jlookup kvs0 "name" with
          | some (.str n) =>
              pure (setKey kvs0 "description"
                (.str ("Tool to " ++ mapReplaceChar '_' ' ' n)))
          | _ => throw "AttributeError: object has no attribute 'replace'"
      if !hasKey kvs1 "input_schema" then
        throw "Tool is missing required field: input_schema"
      -- name length repair
      let kvs2 ←
        match jlookup kvs1 "name" with
        | some (.str n) =>
            if n.length > 64 then pure (setKey kvs1 "name" (.str (fixLongName n)))
            else pure kvs1
        | some (.arr xs) =>
            if xs.length > 64 then
              throw "AttributeError: 'list' object has no attribute 'split'"
            else pure kvs1
        | some (.obj okvs) =>
            if okvs.length > 64 then
              throw "AttributeError: 'dict' object has no attribute 'split'"
            else pure kvs1
        | _ => throw "TypeError: object has no len()"
      -- input_schema shape check, type default, reference repair
      match jlookup kvs2 "input_schema" with
      | some (.obj skvs) =>
          let skvs := ensureSchemaType skvs
          match fix_schema_references (.obj skvs) with
          | some fixedSchema => pure (.obj (setKey kvs2 "input_schema" fixedSchema))
          | none => throw "AttributeError: object has no attribute 'items'"
      | some _ => throw "input_schema must be an object"
      | none => throw "Tool is missing required field: input_schema"
  | _ => throw "TypeError: tool is not a mapping"

/-- Model of `validate_and_fix_tools` (schema_validator.py, lines 133-155):
fix each tool in order, collecting successes and (tool, error message)
failures.  `none` models the batch itself crashing, which happens exactly
when a failing element is not a dict: the `except` handler's diagnostic
`tool.get('name', 'unknown')` then raises and propagates. -/
def validate_and_fix_tools : List Json → Option (List Json × List (Json × String))
  | [] => some ([], [])
  | t :: rest =>
      match validate_and_fix_tool t with
      | .ok f =>
          (validate_and_fix_tools rest).map fun p => (f :: p.1, p.2)
      | .error e =>
          match t with
          | .obj _ =>
              (validate_and_fix_tools rest).map fun p => (p.1, (t, e) :: p.2)
          | _ => none

/-- Substring containment on strings (Python `needle in hay`). -/
def strContainsSub (hay needle : String) : Bool :=
  (List.range (hay.length + 1)).any fun i => needle.toList.isPrefixOf (hay.toList.drop i)

/-- Python `s in x` for the generator's containment tests: key containment for
dicts, substring for strings, element membership for lists; `none` models the
`TypeError` raised on other types. -/
def jsonContains (container : Json) (s : String) : Option Bool :=
  match container with
  | .obj kvs => some (hasKey kvs s)
  | .str t => some (strContainsSub t s)
  | .arr xs => some (xs.any fun x => match x with | .str t => t == s | _ => false)
  | _ => none

/-- Python `x[k]` with a string key: dict lookup (`none` doubles for the
`KeyError` on a missing key and the `TypeError` on non-dicts). -/
def indexJson (j : Json) (k : String) : Option Json :=
  match j with
  | .obj kvs => jlookup kvs k
  | _ => none

/-- Python `.copy()`: available on dicts and lists, raises otherwise. -/
def copyCheck : Json → Option Json
  | .obj kvs => some (.obj kvs)
  | .arr xs => some (.arr xs)
  | _ => none

/-- Python `path.strip("/")`: remove every leading and trailing slash. -/
def stripSlashes (s : String) : String :=
  String.mk (((s.toList.dropWhile (· = '/')).reverse.dropWhile (· = '/')).reverse)

/-- The endpoint slug of `generate_tools_from_openapi` (parse_openapi.py,
line 92): `path.strip("/").replace("/", "_").replace("{", "").replace("}", "")`. -/
def endpointSlug (path : String) : String :=
  removeChar (Char.ofNat 125) (removeChar (Char.ofNat 123)
    (mapReplaceChar '/' '_' (stripSlashes path)))

/-- The tool name `f"api_call_{method.lower()}_{endpoint}"`. -/
def toolNameFor (method path : String) : String :=
  "api_call_" ++ lowerStr method ++ "_" ++ endpointSlug path

/-- The base `input_schema` literal of `generate_tools_from_openapi`
(parse_openapi.py, lines 101-116). -/
def baseInputSchema (baseUrl path method : String) : Json :=
  .obj [("type", .str "object"),
        ("properties", .obj [
          ("url", .obj [("type", .str "string"),
                        ("description", .str "URL to send the request to"),
                        ("default", .str (baseUrl ++ path))]),
          ("method", .obj [("type", .str "string"),
                           ("description", .str "HTTP method to use"),
                           ("enum", .arr [.str (upperStr method)])])]),
        ("required", .arr [.str "url", .str "method"])]

/-- The mutation `input_schema["properties"][name] = v` on the generator's
input schema. -/
def setSchemaProp (inputSchema : Json) (name : String) (v : Json) : Option Json :=
  match inputSchema with
  | .obj kvs =>
      match jlookup kvs "properties" with
      | some (.obj props) =>
          some (.obj (setKey kvs "properties" (.obj (setKey props name v))))
      | _ => none
  | _ => none

/-- Description extraction (parse_openapi.py, lines 96-98):
`operation.get("description", operation.get("summary", ""))`, falling back to
the `200` response's description when falsy. -/
def operationDescription (op : List (String × Json)) : Option Json :=
  let d := ((jlookup op "description").orElse fun _ => jlookup op "summary").getD (.str "")
  if !jsonTruthy d ∧ hasKey op "responses" then
    match jlookup op "responses" with
    | some resps => do
        let has200 ← jsonContains resps "200"
        if has200 then do
          let r200 ← indexJson resps "200"
          match r200 with
          | .obj r => some ((jlookup r "description").getD (.str ""))
          | _ => none          -- `.get` on a non-dict raises
        else some d
    | none => some d
  else some d

/-- The compound test `mt in content_types and "schema" in content_types[mt]`. -/
def ctHasSchema (contentTypes : Json) (mediaType : String) : Option Bool := do
  let h ← jsonContains contentTypes mediaType
  if h then do
    let ct ← indexJson contentTypes mediaType
    jsonContains ct "schema"
  else pure false

/-- The `for param in operation["parameters"]` loop (parse_openapi.py,
lines 151-160), accumulating the `params` properties dict and required list.
Parameter names must be strings in this model (Python would accept any
hashable dict key; no claim depends on non-string names). -/
def genParams : List Json → List (String × Json) → List Json →
    Option (List (String × Json) × List Json)
  | [], props, req => some (props, req)
  | p :: rest, props, req => do
      match p with
      | .obj pkvs => do
          let nameJ ← jlookup pkvs "name"
          let pname ← (match nameJ with | .str s => some s | _ => none)
          let props' ←
            if hasKey pkvs "schema" then do
              let ps ← copyCheck ((jlookup pkvs "schema").getD .null)
              let hasDesc ← jsonContains ps "description"
              let ps' ←
                if !hasDesc ∧ hasKey pkvs "description" then
                  match ps with
                  | .obj pse =>
                      some (.obj (setKey pse "description"
                        ((jlookup pkvs "description").getD .null)))
                  | _ => none    -- string-key assignment into a list raises
                else pure ps
              pure (setKey props pname ps')
            else pure props
          let req' := if jsonTruthy ((jlookup pkvs "required").getD (.bool false))
                      then req ++ [Json.str pname] else req
          genParams rest props' req'
      | _ => none        -- `param["name"]` raises on non-dict elements

/-- The `application/json` request-body branch (parse_openapi.py, lines
123-128): fetch the schema, `.copy()` it and normalize it. -/
def jsonBody (contentTypes : Json) : Option Json := do
  let ct ← indexJson contentTypes "application/json"
  let requestSchema0 ← indexJson ct "schema"
  let requestSchema ← copyCheck requestSchema0
  process_schema requestSchema

/-- The value stored under `requestBody` by the `multipart/form-data` branch
(parse_openapi.py, lines 131-141): the normalized schema with its description
forced and, when the raw schema has a top-level `file` property, the base64
note. -/
def multipartBody (requestSchema rb : Json) : Option Json := do
  let rbe ← (match rb with | .obj rbe => some rbe | _ => none)
  let rbe := setKey rbe "description" (.str "Form data for file upload")
  let hp ← jsonContains requestSchema "properties"
  let hasFile ←
    if hp then do
      let propsVal ← (match requestSchema with
        | .obj rs => some ((jlookup rs "properties").getD (.obj []))
        | _ => none)
      jsonContains propsVal "file"
    else pure false
  pure (.obj (if hasFile then
      setKey rbe "notes" (.str "Contains file upload. Use base64 encoded content.")
    else rbe))

/-- The request-body attachment block of `generate_tools_from_openapi`
(parse_openapi.py, lines 118-141): `application/json` first, then
`multipart/form-data`. -/
def addRequestBody (op : List (String × Json)) (is0 : Json) : Option Json :=
  if hasKey op "requestBody" then do
    let hasContent ← jsonContains ((jlookup op "requestBody").getD .null) "content"
    if hasContent then do
      let contentTypes ← indexJson ((jlookup op "requestBody").getD .null) "content"
      let js ← ctHasSchema contentTypes "application/json"
      if js then do
        let rb ← jsonBody contentTypes
        setSchemaProp is0 "requestBody" rb
      else do
        let ms ← ctHasSchema contentTypes "multipart/form-data"
        if ms then do
          let ct ← indexJson contentTypes "multipart/form-data"
          let requestSchema0 ← indexJson ct "schema"
          let requestSchema ← copyCheck requestSchema0
          let rb ← process_schema requestSchema
          let rbv ← multipartBody requestSchema rb
          setSchemaProp is0 "requestBody" rbv
        else pure is0
    else pure is0
  else pure is0

/-- The parameters block of `generate_tools_from_openapi` (parse_openapi.py,
lines 143-163): build the `params` property when at least one parameter
contributed a schema. -/
def addParams (op : List (String × Json)) (is1 : Json) : Option Json :=
  if hasKey op "parameters" then
    match (jlookup op "parameters").getD .null with
    | .arr params => do
        let pr ← genParams params [] []
        if !pr.1.isEmpty then
          setSchemaProp is1 "params"
            (.obj [("type", .str "object"),
                   ("properties", .obj pr.1),
                   ("required", .arr pr.2)])
        else pure is1
    | .obj [] => pure is1    -- iterating an empty dict: no iterations
    | .str "" => pure is1    -- iterating an empty string: no iterations
    | _ => none    -- iterating anything else reaches `param["name"]` or raises
  else pure is1

/-- One tool of `generate_tools_from_openapi` (parse_openapi.py, lines 91-172),
for a supported method: name, description, base input schema, optional
`requestBody` and `params` properties. -/
def mkTool (baseUrl path method : String) (opJ : Json) : Option Json := do
  match opJ with
  | .obj op => do
      let desc ← operationDescription op
      let is1 ← addRequestBody op (baseInputSchema baseUrl path method)
      let is2 ← addParams op is1
      pure (.obj [("name", .str (toolNameFor method path)),
                  ("description", desc),
                  ("input_schema", is2)])
  | _ => none      -- `operation.get` raises on a non-dict

/-- The inner `for method, operation in path_item.items()` loop: unsupported
methods are skipped, supported ones emit one tool each, in order. -/
def genMethods (baseUrl path : String) : List (String × Json) → Option (List Json)
  | [] => some []
  | (method, op) :: rest =>
      if lowerStr method ∈ ["get", "post", "patch", "delete"] then do
        let t ← mkTool baseUrl path method op
        let more ← genMethods baseUrl path rest
        pure (t :: more)
      else genMethods baseUrl path rest

/-- The outer `for path, path_item in openapi_spec.get("paths", {}).items()`
loop.  A non-dict path item makes `path_item.items()` raise. -/
def genPaths (baseUrl : String) : List (String × Json) → Option (List Json)
  | [] => some []
  | (path, item) :: rest =>
      match item with
      | .obj methods => do
          let ts ← genMethods baseUrl path methods
          let more ← genPaths baseUrl rest
          pure (ts ++ more)
      | _ => none

/-- Model of `generate_tools_from_openapi` (parse_openapi.py, lines 71-175). -/
def generate_tools_from_openapi (spec : Json) (baseUrl : String) : Option (List Json) :=
  match spec with
  | .obj skvs =>
      match (jlookup skvs "paths").getD (.obj []) with
      | .obj paths => genPaths baseUrl paths
      | _ => none      -- `.items()` raises on a non-dict `paths`
  | _ => none          -- `.get` raises on a non-dict document

/-- The (path, method) pairs of a document that carry a supported HTTP method,
in iteration order: the pairs for which the generator is specified to emit
exactly one tool each. -/
def qualifyingPairs (spec : Json) : List (String × String) :=
  match spec with
  | .obj skvs =>
      match (jlookup skvs "paths").getD (.obj []) with
      | .obj paths =>
          paths.flatMap fun pi =>
            match pi.2 with
            | .obj methods =>
                methods.filterMap fun me =>
                  if lowerStr me.1 ∈ ["get", "post", "patch", "delete"] then
                    some (pi.1, me.1)
                  else none
            | _ => []
      | _ => []
  | _ => []

/-- The access path `tool["input_schema"]["properties"]["url"]["default"]`. -/
def urlDefaultOf (tool : Json) : Option Json := do
  let is ← indexJson tool "input_schema"
  let props ← indexJson is "properties"
  let url ← indexJson props "url"
  indexJson url "default"

mutual

/-- Characterization of `process_schema` outputs: a dict with `type` and
`description` present, no duplicate keys, and every entry shaped like the key
loop leaves it (no `$ref` key, no composition key with a non-dict value,
`properties`-dict values normalized, nested dict values normalized).
Fragments of this shape are fixed points of `process_schema`. -/
def normalJson : Json → Bool
  | .obj kvs =>
      hasKey kvs "type" && hasKey kvs "description" &&
      decide ((kvs.map Prod.fst).Nodup) && normalEntries kvs
  | _ => false
termination_by j => (sizeOf j, 1)

/-- All entries of a dict are in normal shape. -/
def normalEntries : List (String × Json) → Bool
  | [] => true
  | (k, v) :: rest => normalEntry k v && normalEntries rest
termination_by l => (sizeOf l, 2)

/-- One dict entry in normal shape (see `normalJson`). -/
def normalEntry (k : String) (v : Json) : Bool :=
  if k = "$ref" then false
  else
    match v with
    | .obj sub =>
        if k = "properties" then
          decide ((sub.map Prod.fst).Nodup) && propsNormal sub
        else normalJson (.obj sub)
    | _ => !(k == "anyOf" || k == "oneOf" || k == "allOf")
termination_by (sizeOf v, 3)

/-- All values of a `properties` dict are normalized fragments. -/
def propsNormal : List (String × Json) → Bool
  | [] => true
  | (_, v) :: rest => normalJson v && propsNormal rest
termination_by l => (sizeOf l, 2)

end

/-- Normal shape for the accumulator of the key loop: distinct keys, all
entries normal. -/
def normalAcc (acc : List (String × Json)) : Bool :=
  decide ((acc.map Prod.fst).Nodup) && normalEntries acc

/-- Normal shape for the accumulator of the `properties` sub-loop. -/
def normPropsAcc (acc : List (String × Json)) : Bool :=
  decide ((acc.map Prod.fst).Nodup) && propsNormal acc

/-! Basic lemmas about the Python-dict operations. -/

theorem jlookup_setKey_self (kvs : List (String × Json)) (k : String) (v : Json) :
    jlookup (setKey kvs k v) k = some v := by
  induction kvs with
  | nil => simp [setKey, jlookup]
  | cons hd tl ih =>
      obtain ⟨k0, v0⟩ := hd
      by_cases h : k0 = k
      · subst h; simp [setKey, jlookup]
      · simp [setKey, h, jlookup, ih]

theorem jlookup_setKey_ne (kvs : List (String × Json)) (k k' : String) (v : Json)
    (h : k' ≠ k) : jlookup (setKey kvs k v) k' = jlookup kvs k' := by
  induction kvs with
  | nil => simp [setKey, jlookup, Ne.symm h]
  | cons hd tl ih =>
      obtain ⟨k0, v0⟩ := hd
      by_cases h0 : k0 = k
      · subst h0; simp [setKey, jlookup, Ne.symm h]
      · simp [setKey, h0, jlookup, ih]

theorem hasKey_setKey_self (kvs : List (String × Json)) (k : String) (v : Json) :
    hasKey (setKey kvs k v) k = true := by
  simp [hasKey, jlookup_setKey_self]

theorem hasKey_setKey_ne (kvs : List (String × Json)) (k k' : String) (v : Json)
    (h : k' ≠ k) : hasKey (setKey kvs k v) k' = hasKey kvs k' := by
  simp [hasKey, jlookup_setKey_ne _ _ _ _ h]

theorem setKey_of_not_hasKey (kvs : List (String × Json)) (k : String) (v : Json)
    (h : hasKey kvs k = false) : setKey kvs k v = kvs ++ [(k, v)] := by
  induction kvs with
  | nil => simp [setKey]
  | cons hd tl ih =>
      obtain ⟨k0, v0⟩ := hd
      by_cases h0 : k0 = k
      · subst h0; simp [hasKey, jlookup] at h
      · simp [setKey, h0]
        exact ih (by simpa [hasKey, jlookup, h0] using h)

theorem hasKey_iff_mem_keys (kvs : List (String × Json)) (k : String) :
    hasKey kvs k = true ↔ k ∈ kvs.map Prod.fst := by
  induction kvs with
  | nil => simp [hasKey, jlookup]
  | cons hd tl ih =>
      obtain ⟨k0, v0⟩ := hd
      by_cases h0 : k0 = k
      · subst h0; simp [hasKey, jlookup]
      · simp [hasKey, jlookup, h0, Ne.symm h0] at ih ⊢
        exact ih

theorem hasKey_append (l1 l2 : List (String × Json)) (k : String) :
    hasKey (l1 ++ l2) k = (hasKey l1 k || hasKey l2 k) := by
  induction l1 with
  | nil => simp [hasKey, jlookup]
  | cons hd tl ih =>
      obtain ⟨k0, v0⟩ := hd
      by_cases h0 : k0 = k
      · subst h0; simp [hasKey, jlookup]
      · simpa [hasKey, jlookup, h0] using ih

theorem keys_setKey (kvs : List (String × Json)) (k : String) (v : Json) :
    (setKey kvs k v).map Prod.fst =
      if hasKey kvs k then kvs.map Prod.fst else kvs.map Prod.fst ++ [k] := by
  induction kvs with
  | nil => simp [setKey, hasKey, jlookup]
  | cons hd tl ih =>
      obtain ⟨k0, v0⟩ := hd
      by_cases h0 : k0 = k
      · subst h0; simp [setKey, hasKey, jlookup]
      · simp [setKey, h0, hasKey, jlookup, ih]
        by_cases hc : (jlookup tl k).isSome = true <;> simp [hc]

theorem nodup_keys_setKey (kvs : List (String × Json)) (k : String) (v : Json)
    (h : (kvs.map Prod.fst).Nodup) : ((setKey kvs k v).map Prod.fst).Nodup := by
  rw [keys_setKey]
  by_cases h1 : hasKey kvs k = true
  · simpa [h1] using h
  · have hk : k ∉ kvs.map Prod.fst := by
      intro hmem
      exact absurd ((hasKey_iff_mem_keys kvs k).2 hmem) h1
    simp only [h1, if_false, Bool.false_eq_true]
    rw [List.nodup_append]
    refine ⟨h, List.nodup_singleton _, ?_⟩
    intro a ha hb
    simp at hb
    subst hb
    exact hk ha

theorem optionBind_eq_some {α β : Type} (x : Option α) (f : α → Option β) (b : β) :
    (x >>= f = some b) ↔ ∃ a, x = some a ∧ f a = some b := Option.bind_eq_some

theorem optionSomeBind {α β : Type} (a : α) (f : α → Option β) : (some a >>= f) = f a := rfl

theorem optionBindAssoc {α β γ : Type} (x : Option α) (f : α → Option β) (g : β → Option γ) :
    (x >>= fun a => f a >>= g) = ((x >>= f) >>= g) := by cases x <;> rfl

/-! C10: every fragment returned by `process_schema` has `type` and
`description` keys. -/

theorem processed_obj_shape (x y : Json)
    (h : process_schema x = some y) :
    ∃ r, y = Json.obj r ∧ hasKey r "type" = true ∧ hasKey r "description" = true := by
  match x with
  | .null | .bool _ | .num _ | .str _ | .arr _ => simp [process_schema] at h
  | .obj kvs =>
      rw [process_schema] at h
      cases hr : processEntries kvs (jlookup kvs "description") [] with
      | none => rw [hr] at h; simp at h
      | some r0 =>
          rw [hr] at h
          simp only [bind, Option.bind, pure, Option.some.injEq] at h
          refine ⟨_, h.symm, ?_, ?_⟩ <;>
          · by_cases ht : hasKey r0 "type" = true <;>
              by_cases hd : hasKey (if hasKey r0 "type" = true then r0
                else setKey r0 "type" (Json.str "object")) "description" = true <;>
              simp_all [hasKey_setKey_self,
                hasKey_setKey_ne _ _ _ _ (by decide : ("type" : String) ≠ "description"),
                hasKey_setKey_ne _ _ _ _ (by decide : ("description" : String) ≠ "type")]

/-! C5 and C6: the name-length repair. -/

theorem strTake_length (s : String) (n : Nat) :
    (strTake s n).length = min n s.length := by
  show (s.toList.take n).length = min n s.length
  rw [List.length_take]
  rfl

theorem fixLongName_spec (s : String) (hparts : 3 ≤ (splitUnderscore s).length) :
    (0 < remainingOf s →
      (fixLongName s).length ≤ 64 ∧
      ∃ mid, fixLongName s = preOf s ++ "_" ++ mid ++ "_" ++ lastOf s) ∧
    (remainingOf s ≤ 0 → fixLongName s = strTake s 60 ++ "...") := by
  constructor
  · intro hrem
    rw [fixLongName, if_pos hparts, if_pos hrem]
    constructor
    · simp only [String.length_append]
      by_cases hm : ((String.intercalate "_" (((splitUnderscore s).drop 3).dropLast)).length : Int) >
        remainingOf s
      · rw [if_pos hm]
        have h1 := strTake_length (String.intercalate "_" (((splitUnderscore s).drop 3).dropLast))
          (remainingOf s).toNat
        rw [h1]
        simp only [show ("_" : String).length = 1 from rfl]
        unfold remainingOf at hrem hm ⊢
        omega
      · rw [if_neg hm]
        simp only [show ("_" : String).length = 1 from rfl]
        unfold remainingOf at hrem hm
        simp at hm
        omega
    · exact ⟨_, rfl⟩
  · intro hrem
    rw [fixLongName, if_pos hparts, if_neg (by omega)]

/-- C6 counterexample: the spec note claims the reassembled truncated name MAY
exceed 64 characters when the remaining budget is positive; it never does,
because exactly the two budgeted underscores are added back. -/
theorem c6_counterexample :
    ¬ ∃ s : String, 64 < s.length ∧ 3 ≤ (splitUnderscore s).length ∧
      0 < remainingOf s ∧ 64 < (fixLongName s).length := by
  rintro ⟨s, hlen, hparts, hrem, hbad⟩
  have h := ((fixLongName_spec s hparts).1 hrem).1
  omega

/-- C6 (amended): for every name longer than 64 characters with at least 3
underscore-separated parts and a positive remaining budget, the name
reassembled by the repair as prefix + "_" + truncated-middle + "_" + suffix
has length at most 64 (the two separators are exactly the 2 characters the
budget reserves). -/
theorem c6_amended (s : String) (hlen : 64 < s.length)
    (hparts : 3 ≤ (splitUnderscore s).length) (hrem : 0 < remainingOf s) :
    (fixLongName s).length ≤ 64 :=
  ((fixLongName_spec s hparts).1 hrem).1

/-- Witness for C6 (amended) at a concrete 65-character name. -/
theorem c6_witness :
    (fixLongName ("api_call_get_" ++ String.mk (List.replicate 40 'x') ++ "_abcdefgholm")).length ≤ 64 :=
  c6_amended _ (by decide) (by decide) (by decide)

theorem validate_ok_eval (kvs : List (String × Json)) (s : String)
    (skvs : List (String × Json)) (fs : Json)
    (hname : jlookup kvs "name" = some (.str s))
    (hdesc : hasKey kvs "description" = true)
    (hschema : jlookup kvs "input_schema" = some (.obj skvs))
    (hfix : fix_schema_references (.obj (ensureSchemaType skvs)) = some fs) :
    validate_and_fix_tool (.obj kvs) =
      .ok (.obj (setKey (if 64 < s.length then setKey kvs "name" (.str (fixLongName s)) else kvs)
        "input_schema" fs)) := by
  have hn : hasKey kvs "name" = true := by simp [hasKey, hname]
  have hs : hasKey kvs "input_schema" = true := by simp [hasKey, hschema]
  by_cases hlen : 64 < s.length
  · simp [validate_and_fix_tool, hn, hdesc, hs, hname, hlen,
      jlookup_setKey_ne _ _ _ _ (by decide : ("input_schema" : String) ≠ "name"),
      hschema, hfix, bind, Except.bind, pure, Except.pure]
  · simp [validate_and_fix_tool, hn, hdesc, hs, hname, hlen,
      hschema, hfix, bind, Except.bind, pure, Except.pure]

/-- C5 (amended): for a tool whose string name has exactly 65 characters and
at least 3 underscore-separated parts (with description present and a
repairable dict input_schema), `validate_and_fix_tool` succeeds and replaces
the name by the repaired name; when the remaining budget is positive the
repaired name has at most 64 characters and preserves the first-3-parts
prefix and the last part verbatim, but when the budget is zero or negative it
is the first 60 characters plus "..." (63 characters), which need not
preserve either part. -/
theorem c5_amended (kvs skvs : List (String × Json)) (s : String) (fs : Json)
    (hname : jlookup kvs "name" = some (.str s))
    (hdesc : hasKey kvs "description" = true)
    (hschema : jlookup kvs "input_schema" = some (.obj skvs))
    (hfix : fix_schema_references (.obj (ensureSchemaType skvs)) = some fs)
    (hlen : s.length = 65) (hparts : 3 ≤ (splitUnderscore s).length) :
    validate_and_fix_tool (.obj kvs) =
      .ok (.obj (setKey (setKey kvs "name" (.str (fixLongName s))) "input_schema" fs)) ∧
    (0 < remainingOf s →
      (fixLongName s).length ≤ 64 ∧
      ∃ mid, fixLongName s = preOf s ++ "_" ++ mid ++ "_" ++ lastOf s) ∧
    (remainingOf s ≤ 0 → fixLongName s = strTake s 60 ++ "...") := by
  refine ⟨?_, (fixLongName_spec s hparts).1, (fixLongName_spec s hparts).2⟩
  have h := validate_ok_eval kvs s skvs fs hname hdesc hschema hfix
  rwa [if_pos (by omega : 64 < s.length)] at h

/-- Witness for C5 (amended) at a concrete 65-character name whose remaining
budget is positive. -/
theorem c5_witness :
    validate_and_fix_tool (Json.obj
      [("name", Json.str ("api_call_get_" ++ String.mk (List.replicate 40 'x') ++ "_abcdefgholm")),
       ("description", Json.str "d"), ("input_schema", Json.obj [])]) =
      .ok (Json.obj
        [("name", Json.str (fixLongName
            ("api_call_get_" ++ String.mk (List.replicate 40 'x') ++ "_abcdefgholm"))),
         ("description", Json.str "d"),
         ("input_schema", Json.obj [("type", Json.str "object")])]) := by
  have h := (c5_amended
    [("name", Json.str ("api_call_get_" ++ String.mk (List.replicate 40 'x') ++ "_abcdefgholm")),
     ("description", Json.str "d"), ("input_schema", Json.obj [])]
    [] ("api_call_get_" ++ String.mk (List.replicate 40 'x') ++ "_abcdefgholm")
    (Json.obj [("type", Json.str "object")])
    (by simp [jlookup]) (by simp [hasKey, jlookup]) (by simp [jlookup])
    (by simp [ensureSchemaType, hasKey, jlookup, setKey, fix_schema_references, fixEntries,
      fixEntry])
    (by decide) (by decide)).1
  simpa [setKey] using h

/-- C5 counterexample: a 65-character name with exactly 3 parts falls into the
`remaining <= 0` branch, and the repaired name (60 characters plus "...")
preserves neither the first-3-parts prefix nor the last part. -/
theorem c5_counterexample :
    validate_and_fix_tool (Json.obj
      [("name", Json.str ("a_b_" ++ String.mk (List.replicate 61 'c'))),
       ("description", Json.str "d"), ("input_schema", Json.obj [])]) =
      .ok (Json.obj
        [("name", Json.str (fixLongName ("a_b_" ++ String.mk (List.replicate 61 'c')))),
         ("description", Json.str "d"),
         ("input_schema", Json.obj [("type", Json.str "object")])]) ∧
    ("a_b_" ++ String.mk (List.replicate 61 'c')).length = 65 ∧
    3 ≤ (splitUnderscore ("a_b_" ++ String.mk (List.replicate 61 'c'))).length ∧
    ¬ ∃ mid, fixLongName ("a_b_" ++ String.mk (List.replicate 61 'c')) =
        preOf ("a_b_" ++ String.mk (List.replicate 61 'c')) ++ "_" ++ mid ++ "_" ++
          lastOf ("a_b_" ++ String.mk (List.replicate 61 'c')) := by
  refine ⟨?_, by decide, by decide, ?_⟩
  · have h := validate_ok_eval
      [("name", Json.str ("a_b_" ++ String.mk (List.replicate 61 'c'))),
       ("description", Json.str "d"), ("input_schema", Json.obj [])]
      ("a_b_" ++ String.mk (List.replicate 61 'c')) []
      (Json.obj [("type", Json.str "object")])
      (by simp [jlookup]) (by simp [hasKey, jlookup]) (by simp [jlookup])
      (by simp [ensureSchemaType, hasKey, jlookup, setKey, fix_schema_references, fixEntries,
        fixEntry])
    rw [if_pos (by decide : 64 < ("a_b_" ++ String.mk (List.replicate 61 'c')).length)] at h
    simpa [setKey] using h
  · rintro ⟨mid, hmid⟩
    have l1 : (fixLongName ("a_b_" ++ String.mk (List.replicate 61 'c'))).length = 63 := by decide
    have l2 : (preOf ("a_b_" ++ String.mk (List.replicate 61 'c'))).length = 65 := by decide
    have l3 : (lastOf ("a_b_" ++ String.mk (List.replicate 61 'c'))).length = 61 := by decide
    rw [hmid] at l1
    simp only [String.length_append, show ("_" : String).length = 1 from rfl] at l1
    omega

/-! C7: which tools make `validate_and_fix_tool` fail. -/

theorem validate_err_noname (kvs : List (String × Json))
    (h : hasKey kvs "name" = false) :
    validate_and_fix_tool (.obj kvs) = .error "Tool is missing required field: name" := by
  simp [validate_and_fix_tool, h, bind, Except.bind]

theorem validate_err_noschema (kvs : List (String × Json)) (s : String)
    (hname : jlookup kvs "name" = some (.str s))
    (h : hasKey kvs "input_schema" = false) :
    validate_and_fix_tool (.obj kvs) =
      .error "Tool is missing required field: input_schema" := by
  have hn : hasKey kvs "name" = true := by simp [hasKey, hname]
  by_cases hd : hasKey kvs "description" = true
  · simp [validate_and_fix_tool, hn, hd, h, bind, Except.bind, pure, Except.pure]
  · simp only [Bool.not_eq_true] at hd
    simp [validate_and_fix_tool, hn, hd, hname, h, bind, Except.bind, pure, Except.pure,
      hasKey_setKey_ne _ _ _ _ (by decide : ("input_schema" : String) ≠ "description")]

theorem validate_ok_eval_nodesc (kvs : List (String × Json)) (s : String)
    (skvs : List (String × Json)) (fs : Json)
    (hname : jlookup kvs "name" = some (.str s))
    (hdesc : hasKey kvs "description" = false)
    (hschema : jlookup kvs "input_schema" = some (.obj skvs))
    (hfix : fix_schema_references (.obj (ensureSchemaType skvs)) = some fs) :
    validate_and_fix_tool (.obj kvs) =
      .ok (.obj (setKey (if 64 < s.length then
          setKey (setKey kvs "description" (.str ("Tool to " ++ mapReplaceChar '_' ' ' s)))
            "name" (.str (fixLongName s))
        else setKey kvs "description" (.str ("Tool to " ++ mapReplaceChar '_' ' ' s)))
        "input_schema" fs)) := by
  have hn : hasKey kvs "name" = true := by simp [hasKey, hname]
  have hs : hasKey kvs "input_schema" = true := by simp [hasKey, hschema]
  by_cases hlen : 64 < s.length
  · simp [validate_and_fix_tool, hn, hdesc, hname, hlen, hschema, hfix, bind, Except.bind,
      pure, Except.pure,
      hasKey_setKey_ne _ _ _ _ (by decide : ("input_schema" : String) ≠ "description"),
      jlookup_setKey_ne _ _ _ _ (by decide : ("name" : String) ≠ "description"),
      jlookup_setKey_ne _ _ _ _ (by decide : ("input_schema" : String) ≠ "name"),
      jlookup_setKey_ne _ _ _ _ (by decide : ("input_schema" : String) ≠ "description"), hs]
  · simp [validate_and_fix_tool, hn, hdesc, hname, hlen, hschema, hfix, bind, Except.bind,
      pure, Except.pure,
      hasKey_setKey_ne _ _ _ _ (by decide : ("input_schema" : String) ≠ "description"),
      jlookup_setKey_ne _ _ _ _ (by decide : ("name" : String) ≠ "description"),
      jlookup_setKey_ne _ _ _ _ (by decide : ("input_schema" : String) ≠ "description"), hs]

/-- C7 counterexample: a tool with `name` (and `description`) present but
`input_schema` absent fails, although the claim says `validate_and_fix_tool`
fails only when `name` is absent. -/
theorem c7_counterexample :
    validate_and_fix_tool (Json.obj [("name", Json.str "a"), ("description", Json.str "b")]) =
      .error "Tool is missing required field: input_schema" ∧
    hasKey [("name", Json.str "a"), ("description", Json.str "b")] "name" = true := by
  constructor
  · exact validate_err_noschema _ "a" (by simp [jlookup]) (by decide)
  · decide

/-- C7 (amended): for a dict tool whose `name`, when present, is a string and
whose `input_schema`, when present, is a dict that the reference repair
accepts, `validate_and_fix_tool` succeeds iff both `name` and `input_schema`
are present: a missing `input_schema` is a second unrecoverable field, unlike
`description`, which is defaulted to "Tool to " + name with underscores
replaced by spaces. -/
theorem c7_amended (kvs : List (String × Json)) (s : String)
    (hname : hasKey kvs "name" = true → jlookup kvs "name" = some (.str s))
    (hschema : hasKey kvs "input_schema" = true →
      ∃ skvs fs, jlookup kvs "input_schema" = some (.obj skvs) ∧
        fix_schema_references (.obj (ensureSchemaType skvs)) = some fs) :
    ((∃ out, validate_and_fix_tool (.obj kvs) = .ok out) ↔
      (hasKey kvs "name" = true ∧ hasKey kvs "input_schema" = true)) ∧
    (hasKey kvs "name" = true → hasKey kvs "input_schema" = true →
      hasKey kvs "description" = false →
      ∃ okvs, validate_and_fix_tool (.obj kvs) = .ok (.obj okvs) ∧
        jlookup okvs "description" =
          some (.str ("Tool to " ++ mapReplaceChar '_' ' ' s))) := by
  constructor
  · constructor
    · rintro ⟨out, hout⟩
      by_cases hn : hasKey kvs "name" = true
      · refine ⟨hn, ?_⟩
        by_cases hs : hasKey kvs "input_schema" = true
        · exact hs
        · simp only [Bool.not_eq_true] at hs
          rw [validate_err_noschema kvs s (hname hn) hs] at hout
          simp at hout
      · simp only [Bool.not_eq_true] at hn
        rw [validate_err_noname kvs hn] at hout
        simp at hout
    · rintro ⟨hn, hs⟩
      obtain ⟨skvs, fs, h1, h2⟩ := hschema hs
      by_cases hd : hasKey kvs "description" = true
      · exact ⟨_, validate_ok_eval kvs s skvs fs (hname hn) hd h1 h2⟩
      · simp only [Bool.not_eq_true] at hd
        exact ⟨_, validate_ok_eval_nodesc kvs s skvs fs (hname hn) hd h1 h2⟩
  · intro hn hs hd
    obtain ⟨skvs, fs, h1, h2⟩ := hschema hs
    refine ⟨_, validate_ok_eval_nodesc kvs s skvs fs (hname hn) hd h1 h2, ?_⟩
    by_cases hlen : 64 < s.length
    · rw [if_pos hlen]
      rw [jlookup_setKey_ne _ _ _ _ (by decide : ("description" : String) ≠ "input_schema"),
        jlookup_setKey_ne _ _ _ _ (by decide : ("description" : String) ≠ "name"),
        jlookup_setKey_self]
    · rw [if_neg hlen]
      rw [jlookup_setKey_ne _ _ _ _ (by decide : ("description" : String) ≠ "input_schema"),
        jlookup_setKey_self]

/-- Witness for C7 (amended): a tool with only `name` and `input_schema`
succeeds, with the description defaulted. -/
theorem c7_witness :
    (∃ out, validate_and_fix_tool
      (Json.obj [("name", Json.str "my_tool"), ("input_schema", Json.obj [])]) = .ok out) ∧
    (∃ okvs, validate_and_fix_tool
        (Json.obj [("name", Json.str "my_tool"), ("input_schema", Json.obj [])]) =
          .ok (Json.obj okvs) ∧
      jlookup okvs "description" = some (Json.str "Tool to my tool")) := by
  have h := c7_amended [("name", Json.str "my_tool"), ("input_schema", Json.obj [])] "my_tool"
    (fun _ => by simp [jlookup])
    (fun _ => ⟨[], Json.obj [("type", Json.str "object")], by simp [jlookup],
      by simp [ensureSchemaType, hasKey, jlookup, setKey, fix_schema_references, fixEntries,
        fixEntry]⟩)
  refine ⟨h.1.2 ⟨by decide, by decide⟩, ?_⟩
  have h2 := h.2 (by decide) (by decide) (by decide)
  simpa [show mapReplaceChar '_' ' ' "my_tool" = "my tool" from by decide] using h2

/-! C8: batch isolation. -/

/-- C8: on a list of dict tools, the batch validator applies the single-tool
fix to each element independently and in input order, never aborts the batch
on an individual failure, and returns the fixed tools plus the failures, each
recorded as the original unmodified tool paired with the error's message. -/
theorem c8_batch_isolation (tools : List Json)
    (h : ∀ t ∈ tools, ∃ kv, t = Json.obj kv) :
    validate_and_fix_tools tools = some
      (tools.filterMap fun t =>
         match validate_and_fix_tool t with
         | .ok f => some f
         | .error _ => none,
       tools.filterMap fun t =>
         match validate_and_fix_tool t with
         | .error e => some (t, e)
         | .ok _ => none) := by
  induction tools with
  | nil => simp [validate_and_fix_tools]
  | cons t rest ih =>
      have ht := h t (by simp)
      have hrest : ∀ x ∈ rest, ∃ kv, x = Json.obj kv := fun x hx => h x (by simp [hx])
      obtain ⟨kv, rfl⟩ := ht
      cases hv : validate_and_fix_tool (Json.obj kv) with
      | ok f => simp [validate_and_fix_tools, hv, ih hrest]
      | error e => simp [validate_and_fix_tools, hv, ih hrest]

/-- Witness for C8: 3 tools where the 2nd lacks `name` give 2 fixed tools and
1 failed record holding the original 2nd tool, in order. -/
theorem c8_witness :
    validate_and_fix_tools
      [Json.obj [("name", Json.str "t1"), ("description", Json.str "d"),
                 ("input_schema", Json.obj [])],
       Json.obj [("description", Json.str "no name")],
       Json.obj [("name", Json.str "t3"), ("description", Json.str "d"),
                 ("input_schema", Json.obj [])]] =
      some
        ([Json.obj [("name", Json.str "t1"), ("description", Json.str "d"),
                    ("input_schema", Json.obj [("type", Json.str "object")])],
          Json.obj [("name", Json.str "t3"), ("description", Json.str "d"),
                    ("input_schema", Json.obj [("type", Json.str "object")])]],
         [(Json.obj [("description", Json.str "no name")],
           "Tool is missing required field: name")]) := by
  have h := c8_batch_isolation
    [Json.obj [("name", Json.str "t1"), ("description", Json.str "d"),
               ("input_schema", Json.obj [])],
     Json.obj [("description", Json.str "no name")],
     Json.obj [("name", Json.str "t3"), ("description", Json.str "d"),
               ("input_schema", Json.obj [])]]
    (by intro t ht; simp at ht; rcases ht with rfl | rfl | rfl <;> exact ⟨_, rfl⟩)
  rw [h]
  have e1 := validate_ok_eval
    [("name", Json.str "t1"), ("description", Json.str "d"), ("input_schema", Json.obj [])]
    "t1" [] (Json.obj [("type", Json.str "object")])
    (by simp [jlookup]) (by decide) (by simp [jlookup])
    (by simp [ensureSchemaType, hasKey, jlookup, setKey, fix_schema_references, fixEntries,
      fixEntry])
  have e3 := validate_ok_eval
    [("name", Json.str "t3"), ("description", Json.str "d"), ("input_schema", Json.obj [])]
    "t3" [] (Json.obj [("type", Json.str "object")])
    (by simp [jlookup]) (by decide) (by simp [jlookup])
    (by simp [ensureSchemaType, hasKey, jlookup, setKey, fix_schema_references, fixEntries,
      fixEntry])
  have e2 := validate_err_noname [("description", Json.str "no name")] (by decide)
  rw [if_neg (by decide)] at e1
  rw [if_neg (by decide)] at e3
  simp [e1, e2, e3, setKey]

/-! C9 and C3: the Validator's repair pass on nested structure. -/

theorem fixList_eq_mapM (xs : List Json) :
    fixList xs = xs.mapM fix_schema_references := by
  induction xs with
  | nil => simp [fixList]; rfl
  | cons x rest ih =>
      rw [fixList, List.mapM_cons, ih]

/-- C9 counterexample: a 2-element `anyOf` in which neither element is
null-typed is dropped entirely by `fix_schema_references` — the output is the
empty dict, with no `anyOf` key retained (the claim says it is kept with its
elements repaired). -/
theorem c9_counterexample :
    fix_schema_references (Json.obj [("anyOf", Json.arr
      [Json.obj [("type", Json.str "string")], Json.obj [("type", Json.str "integer")]])]) =
      some (Json.obj []) := by
  simp [fix_schema_references, fixEntries, fixEntry, isNullTyped, jlookup, collapseNullable,
    jsonTruthy]

/-- C9 (amended): every entry of the repair pass other than a dropped
components `$ref` and ANY 2-element `anyOf` (which goes through the
nullable-collapse scan: collapsed on the one-null pattern, crashing on a
truthy non-dict partner, dropped entirely otherwise) is repaired recursively
— dict values via the full pass, list values element-wise — and retained
under its key. -/
theorem c9_amended (k : String) (v : Json) (acc : List (String × Json))
    (h1 : ¬(k = "$ref" ∧ ∃ s, v = Json.str s ∧ strStartsWith s "#/components/" = true))
    (h2 : ¬(k = "anyOf" ∧ ∃ a b, v = Json.arr [a, b])) :
    fixEntry k v acc =
      (match v with
       | Json.obj sub => (fix_schema_references (Json.obj sub)).map fun r => setKey acc k r
       | Json.arr xs => (xs.mapM fix_schema_references).map fun ys => setKey acc k (Json.arr ys)
       | w => some (setKey acc k w)) := by
  match v with
  | .null => simp [fixEntry]
  | .bool _ => simp [fixEntry]
  | .num _ => simp [fixEntry]
  | .str s =>
      rw [fixEntry, if_neg fun hc => h1 ⟨hc.1, s, rfl, hc.2⟩]
  | .obj sub =>
      rw [fixEntry]
      cases hr : fixEntries sub [] <;>
        simp [fix_schema_references, hr, bind, Option.bind]
  | .arr xs =>
      have hcond : ¬(k = "anyOf" ∧ xs.length = 2) := by
        rintro ⟨hk, hl⟩
        obtain ⟨a2, b2, rfl⟩ := List.length_eq_two.mp hl
        exact h2 ⟨hk, a2, b2, rfl⟩
      rw [fixEntry, dif_neg hcond, fixList_eq_mapM]
      cases hr : xs.mapM fix_schema_references <;>
        simp only [List.mapM] at hr <;> simp [hr, bind, Option.bind]

/-- Witness for C9 (amended): a 3-element `anyOf` (not the 2-element pattern)
is repaired element-wise and kept. -/
theorem c9_witness :
    fixEntry "anyOf" (Json.arr [Json.obj [("type", Json.str "string")],
      Json.obj [("type", Json.str "integer")], Json.null]) [] =
      some [("anyOf", Json.arr [Json.obj [("type", Json.str "string")],
        Json.obj [("type", Json.str "integer")], Json.null])] := by
  have h := c9_amended "anyOf"
    (Json.arr [Json.obj [("type", Json.str "string")],
      Json.obj [("type", Json.str "integer")], Json.null]) []
    (by rintro ⟨hk, s, hs, _⟩; cases hs)
    (by rintro ⟨hk, a, b, hab⟩; cases hab)
  rw [h]
  simp [fix_schema_references, fixEntries, fixEntry, setKey, List.mapM, List.mapM.loop]

theorem fixEntries_append (l1 l2 : List (String × Json)) (acc : List (String × Json)) :
    fixEntries (l1 ++ l2) acc = (fixEntries l1 acc).bind fun acc2 => fixEntries l2 acc2 := by
  induction l1 generalizing acc with
  | nil => simp [fixEntries]
  | cons hd tl ih =>
      obtain ⟨k, v⟩ := hd
      rw [List.cons_append, fixEntries, fixEntries]
      cases he : fixEntry k v acc <;> simp [he, ih]

theorem fixEntry_anyOf_eval (a b : Json) (d acc : List (String × Json))
    (hone : isNullTyped a ≠ isNullTyped b)
    (ht : (if isNullTyped a then b else a) = Json.obj d) :
    fixEntry "anyOf" (Json.arr [a, b]) acc =
      (if d.isEmpty then some acc
       else if hasKey d "$ref" then
         some (setKey acc "type" (Json.arr [Json.str "string", Json.str "null"]))
       else collapseEntries d acc) := by
  rw [fixEntry, dif_pos ⟨rfl, rfl⟩]
  cases hna : isNullTyped a <;> cases hnb : isNullTyped b
  · rw [hna, hnb] at hone; exact absurd rfl hone
  · -- a concrete, b null-typed
    rw [hna] at ht
    simp only [if_false, Bool.false_eq_true] at ht
    subst ht
    simp only [hna, hnb, Bool.false_or, Bool.not_true, Bool.false_eq_true, if_false,
      Bool.not_false, if_true]
    rw [collapseNullable]
    cases hde : d.isEmpty <;>
      simp [jsonTruthy, hde]
  · -- a null-typed, b concrete
    rw [hna] at ht
    simp only [if_true] at ht
    subst ht
    simp only [hna, hnb, Bool.true_or, Bool.not_false, if_true]
    rw [collapseNullable]
    cases hde : d.isEmpty <;>
      simp [jsonTruthy, hde]
  · rw [hna, hnb] at hone; exact absurd rfl hone

/-- C3: for a fragment whose entries contain a 2-element `anyOf` in which
exactly one element is null-typed and the other is a dict `d`,
`fix_schema_references` drops the `anyOf` key and instead copies `d`'s keys
into the result with `type` rewritten to `[originalType, "null"]` and the
other values recursively repaired (`collapseEntries`); when `d` carries a
`$ref` the result degrades to the fixed fallback `type: ["string","null"]`
(an empty `d` fails the truthiness test and contributes nothing, which also
copies all of its zero keys). -/
theorem c3_nullable_collapse (pre post : List (String × Json)) (a b : Json)
    (d acc : List (String × Json))
    (hpre : fixEntries pre [] = some acc)
    (hone : isNullTyped a ≠ isNullTyped b)
    (ht : (if isNullTyped a then b else a) = Json.obj d) :
    fix_schema_references (Json.obj (pre ++ ("anyOf", Json.arr [a, b]) :: post)) =
      ((if d.isEmpty then some acc
        else if hasKey d "$ref" then
          some (setKey acc "type" (Json.arr [Json.str "string", Json.str "null"]))
        else collapseEntries d acc).bind fun acc2 =>
          (fixEntries post acc2).map Json.obj) := by
  have happ := fixEntries_append pre (("anyOf", Json.arr [a, b]) :: post) []
  rw [hpre] at happ
  simp only [Option.some_bind] at happ
  have hstep : fixEntries (("anyOf", Json.arr [a, b]) :: post) acc =
      (fixEntry "anyOf" (Json.arr [a, b]) acc).bind fun acc2 => fixEntries post acc2 := by
    rw [fixEntries]
    cases he : fixEntry "anyOf" (Json.arr [a, b]) acc <;> simp [he]
  rw [fixEntry_anyOf_eval a b d acc hone ht] at hstep
  have hfix : fix_schema_references (Json.obj (pre ++ ("anyOf", Json.arr [a, b]) :: post)) =
      (fixEntries (pre ++ ("anyOf", Json.arr [a, b]) :: post) []).bind fun r =>
        some (Json.obj r) := by
    rw [fix_schema_references]
    cases hfe : fixEntries (pre ++ ("anyOf", Json.arr [a, b]) :: post) [] <;> simp [hfe]
  rw [hfix, happ, hstep]
  cases hC : (if d.isEmpty then some acc
      else if hasKey d "$ref" then
        some (setKey acc "type" (Json.arr [Json.str "string", Json.str "null"]))
      else collapseEntries d acc) with
  | none => simp
  | some acc2 => cases hp : fixEntries post acc2 <;> simp [hp]

/-- Witness for C3 at the claim's own instance:
`anyOf: [{"type":"string"}, {"type":"null"}]` collapses to
`{"type": ["string","null"]}` with no `anyOf` key remaining. -/
theorem c3_witness :
    fix_schema_references (Json.obj [("anyOf", Json.arr
      [Json.obj [("type", Json.str "string")], Json.obj [("type", Json.str "null")]])]) =
      some (Json.obj [("type", Json.arr [Json.str "string", Json.str "null"])]) := by
  have h := c3_nullable_collapse [] [] (Json.obj [("type", Json.str "string")])
    (Json.obj [("type", Json.str "null")]) [("type", Json.str "string")] []
    (by simp [fixEntries])
    (by decide)
    (by rw [if_neg (by decide :
        ¬ isNullTyped (Json.obj [("type", Json.str "string")]) = true)])
  simpa [collapseEntries, fixEntries, setKey, hasKey, jlookup] using h

/-! C2: the first-option simplification of compositions. -/

theorem processEntries_append (l1 l2 : List (String × Json)) (dd : Option Json)
    (acc : List (String × Json)) :
    processEntries (l1 ++ l2) dd acc =
      (processEntries l1 dd acc).bind fun acc2 => processEntries l2 dd acc2 := by
  induction l1 generalizing acc with
  | nil => simp [processEntries]
  | cons hd tl ih =>
      obtain ⟨k, v⟩ := hd
      rw [List.cons_append, processEntries, processEntries]
      cases he : processEntry k v dd acc <;> simp [he, ih]

theorem hasKey_foldl_setKey (ae : List (String × Json)) (acc : List (String × Json))
    (k : String) :
    hasKey (ae.foldl (fun x kv => setKey x kv.1 kv.2) acc) k =
      (hasKey acc k || hasKey ae k) := by
  induction ae generalizing acc with
  | nil => simp [hasKey, jlookup]
  | cons hd tl ih =>
      obtain ⟨k0, v0⟩ := hd
      rw [List.foldl_cons, ih]
      by_cases h0 : k = k0
      · subst h0
        simp [hasKey, jlookup, jlookup_setKey_self]
      · simp [hasKey, jlookup, jlookup_setKey_ne _ _ _ _ h0, Ne.symm h0]

/-- C2 counterexample: a fragment whose `description` key is iterated after
`anyOf` has the suffixed description overwritten by the plain copy: the
result's description is "d", not the
"d (Simplified from multiple options)" the claim requires (the anyOf elements
are `{"type":"string"}` and `{"type":"integer"}`, neither null-typed). -/
theorem c2_counterexample :
    process_schema (Json.obj [("anyOf", Json.arr
        [Json.obj [("type", Json.str "string")], Json.obj [("type", Json.str "integer")]]),
      ("description", Json.str "d")]) =
      some (Json.obj [("type", Json.str "string"), ("description", Json.str "d")]) ∧
    ("d" : String) ≠ "d" ++ " (Simplified from multiple options)" := by
  constructor
  · simp [process_schema, processEntries, processEntry, processProps, mergeFirstOption,
      jlookup, setKey, hasKey]
  · decide

/-- C2 (amended): for a fragment whose LAST key is a composition key
(`anyOf`/`oneOf`/`allOf`) with a non-empty sequence value, and whose
`description`, if present, is a string, `process_schema` returns exactly the
result of the earlier keys with the normalization of the FIRST option
shallow-merged over it (overwriting same-named keys) and `description` then
set to the original description (or empty) suffixed with
" (Simplified from multiple options)"; no later branch contributes.  Keys
iterated after the composition key would overwrite this merge (see the
counterexample), hence the last-key proviso. -/
theorem c2_amended (pre : List (String × Json)) (c : String) (a : Json) (rest : List Json)
    (acc ae : List (String × Json)) (dstr : String)
    (hc : c = "anyOf" ∨ c = "oneOf" ∨ c = "allOf")
    (hd : (jlookup (pre ++ [(c, Json.arr (a :: rest))]) "description" = none ∧ dstr = "") ∨
          jlookup (pre ++ [(c, Json.arr (a :: rest))]) "description" = some (Json.str dstr))
    (hacc : processEntries pre
        (jlookup (pre ++ [(c, Json.arr (a :: rest))]) "description") [] = some acc)
    (ha : process_schema a = some (Json.obj ae)) :
    process_schema (Json.obj (pre ++ [(c, Json.arr (a :: rest))])) =
      some (Json.obj (setKey (ae.foldl (fun x kv => setKey x kv.1 kv.2) acc) "description"
        (Json.str (dstr ++ " (Simplified from multiple options)")))) := by
  have hcref : c ≠ "$ref" := by rcases hc with rfl | rfl | rfl <;> decide
  have hentry : processEntry c (Json.arr (a :: rest))
      (jlookup (pre ++ [(c, Json.arr (a :: rest))]) "description") acc =
      some (setKey (ae.foldl (fun x kv => setKey x kv.1 kv.2) acc) "description"
        (Json.str (dstr ++ " (Simplified from multiple options)"))) := by
    rcases hd with ⟨hnone, rfl⟩ | hsome
    · rcases hc with rfl | rfl | rfl <;>
        simp [processEntry, mergeFirstOption, ha, hnone, bind, Option.bind]
    · rcases hc with rfl | rfl | rfl <;>
        simp [processEntry, mergeFirstOption, ha, hsome, bind, Option.bind]
  have happ := processEntries_append pre [(c, Json.arr (a :: rest))]
    (jlookup (pre ++ [(c, Json.arr (a :: rest))]) "description") []
  rw [hacc] at happ
  simp only [Option.some_bind] at happ
  have hsingle : processEntries [(c, Json.arr (a :: rest))]
      (jlookup (pre ++ [(c, Json.arr (a :: rest))]) "description") acc =
      some (setKey (ae.foldl (fun x kv => setKey x kv.1 kv.2) acc) "description"
        (Json.str (dstr ++ " (Simplified from multiple options)"))) := by
    rw [processEntries, hentry]
    simp [processEntries]
  rw [hsingle] at happ
  have hobj := processed_obj_shape a _ ha
  obtain ⟨r0, hr0, htype0, hdesc0⟩ := hobj
  have hae : ae = r0 := by injection hr0
  subst hae
  have htype : hasKey (setKey (ae.foldl (fun x kv => setKey x kv.1 kv.2) acc) "description"
      (Json.str (dstr ++ " (Simplified from multiple options)"))) "type" = true := by
    rw [hasKey_setKey_ne _ _ _ _ (by decide : ("type" : String) ≠ "description"),
      hasKey_foldl_setKey, htype0]
    simp
  have hdesc : hasKey (setKey (ae.foldl (fun x kv => setKey x kv.1 kv.2) acc) "description"
      (Json.str (dstr ++ " (Simplified from multiple options)"))) "description" = true :=
    hasKey_setKey_self _ _ _
  rw [process_schema, happ]
  simp [htype, hdesc, bind, Option.bind]

/-- Witness for C2 (amended): description before a trailing `anyOf` gets the
suffix, the first option's keys are merged, and the second option's content
never appears. -/
theorem c2_witness :
    process_schema (Json.obj [("description", Json.str "orig"), ("anyOf", Json.arr
        [Json.obj [("type", Json.str "string")], Json.obj [("type", Json.str "integer")]])]) =
      some (Json.obj [("description", Json.str "orig (Simplified from multiple options)"),
        ("type", Json.str "string")]) := by
  have h := c2_amended [("description", Json.str "orig")] "anyOf"
    (Json.obj [("type", Json.str "string")]) [Json.obj [("type", Json.str "integer")]]
    [("description", Json.str "orig")]
    [("type", Json.str "string"), ("description", Json.str "No description available")]
    "orig"
    (Or.inl rfl)
    (Or.inr (by simp [jlookup]))
    (by simp [processEntries, processEntry, jlookup, setKey])
    (by simp [process_schema, processEntries, processEntry, jlookup, setKey, hasKey])
  simpa [setKey] using h

/-! C1: the generator emits one tool per supported (path, method) pair. -/

theorem addRequestBody_cases (op : List (String × Json)) (is0 is1 : Json)
    (h : addRequestBody op is0 = some is1) :
    is1 = is0 ∨ ∃ v, setSchemaProp is0 "requestBody" v = some is1 := by
  unfold addRequestBody at h
  by_cases h0 : hasKey op "requestBody" = true
  · rw [if_pos h0] at h
    rw [optionBind_eq_some] at h
    obtain ⟨hasContent, hc, h⟩ := h
    cases hasContent
    · simp at h; exact Or.inl h.symm
    · rw [if_pos rfl] at h
      rw [optionBind_eq_some] at h
      obtain ⟨ct, hct, h⟩ := h
      rw [optionBind_eq_some] at h
      obtain ⟨js, hjs, h⟩ := h
      cases js
      · rw [if_neg (by decide)] at h
        rw [optionBind_eq_some] at h
        obtain ⟨ms, hms, h⟩ := h
        cases ms
        · rw [if_neg (by decide)] at h
          simp at h; exact Or.inl h.symm
        · rw [if_pos rfl] at h
          rw [optionBind_eq_some] at h
          obtain ⟨ct2, _, h⟩ := h
          rw [optionBind_eq_some] at h
          obtain ⟨rs0, _, h⟩ := h
          rw [optionBind_eq_some] at h
          obtain ⟨rs, _, h⟩ := h
          rw [optionBind_eq_some] at h
          obtain ⟨rb, _, h⟩ := h
          rw [optionBind_eq_some] at h
          obtain ⟨rbv, _, h⟩ := h
          exact Or.inr ⟨_, h⟩
      · rw [if_pos rfl] at h
        rw [optionBind_eq_some] at h
        obtain ⟨rb, _, h⟩ := h
        exact Or.inr ⟨_, h⟩
  · simp only [Bool.not_eq_true] at h0
    rw [h0] at h
    simp at h
    exact Or.inl h.symm

theorem addParams_cases (op : List (String × Json)) (is1 is2 : Json)
    (h : addParams op is1 = some is2) :
    is2 = is1 ∨ ∃ v, setSchemaProp is1 "params" v = some is2 := by
  unfold addParams at h
  by_cases h0 : hasKey op "parameters" = true
  · rw [if_pos h0] at h
    split at h
    · rw [optionBind_eq_some] at h
      obtain ⟨pr, hpr, h⟩ := h
      split at h
      · exact Or.inr ⟨_, h⟩
      · simp at h; exact Or.inl h.symm
    · simp at h; exact Or.inl h.symm
    · simp at h; exact Or.inl h.symm
    · simp at h
  · simp only [Bool.not_eq_true] at h0
    rw [h0] at h
    simp at h
    exact Or.inl h.symm

theorem setSchemaProp_lookup (is is' : Json) (nm : String) (v : Json) (k : String)
    (hk : k ≠ nm) (h : setSchemaProp is nm v = some is') :
    ((indexJson is' "properties").bind fun p => indexJson p k) =
      ((indexJson is "properties").bind fun p => indexJson p k) := by
  cases is with
  | obj kvs =>
      simp only [setSchemaProp] at h
      cases hp : jlookup kvs "properties" with
      | none => rw [hp] at h; simp at h
      | some p =>
          cases p with
          | obj pkvs =>
              rw [hp] at h
              simp only [Option.some.injEq] at h
              subst h
              simp [indexJson, jlookup_setKey_self, hp, jlookup_setKey_ne _ _ _ _ hk]
          | null => rw [hp] at h; simp at h
          | bool b => rw [hp] at h; simp at h
          | num n => rw [hp] at h; simp at h
          | str s => rw [hp] at h; simp at h
          | arr xs => rw [hp] at h; simp at h
  | null => simp [setSchemaProp] at h
  | bool b => simp [setSchemaProp] at h
  | num n => simp [setSchemaProp] at h
  | str s => simp [setSchemaProp] at h
  | arr xs => simp [setSchemaProp] at h

theorem mkTool_shape (baseUrl path method : String) (op t : Json)
    (h : mkTool baseUrl path method op = some t) :
    indexJson t "name" = some (.str (toolNameFor method path)) ∧
    urlDefaultOf t = some (.str (baseUrl ++ path)) := by
  cases op with
  | obj o =>
      simp only [mkTool] at h
      rw [optionBind_eq_some] at h
      obtain ⟨desc, hdesc, h⟩ := h
      rw [optionBind_eq_some] at h
      obtain ⟨is1, his1, h⟩ := h
      rw [optionBind_eq_some] at h
      obtain ⟨is2, his2, h⟩ := h
      simp only [pure, Option.some.injEq] at h
      subst h
      refine ⟨by simp [indexJson, jlookup], ?_⟩
      have hbase : ((indexJson (baseInputSchema baseUrl path method) "properties").bind
          fun p => indexJson p "url") =
          some (Json.obj [("type", Json.str "string"),
            ("description", Json.str "URL to send the request to"),
            ("default", Json.str (baseUrl ++ path))]) := by
        simp [baseInputSchema, indexJson, jlookup]
      have h1 : ((indexJson is1 "properties").bind fun p => indexJson p "url") =
          ((indexJson (baseInputSchema baseUrl path method) "properties").bind
            fun p => indexJson p "url") := by
        rcases addRequestBody_cases o _ _ his1 with rfl | ⟨v, hv⟩
        · rfl
        · exact setSchemaProp_lookup _ _ _ _ _ (by decide) hv
      have h2 : ((indexJson is2 "properties").bind fun p => indexJson p "url") =
          ((indexJson is1 "properties").bind fun p => indexJson p "url") := by
        rcases addParams_cases o _ _ his2 with rfl | ⟨v, hv⟩
        · rfl
        · exact setSchemaProp_lookup _ _ _ _ _ (by decide) hv
      unfold urlDefaultOf
      have hin : indexJson (Json.obj [("name", Json.str (toolNameFor method path)),
          ("description", desc), ("input_schema", is2)]) "input_schema" = some is2 := by
        simp [indexJson, jlookup]
      rw [hin, optionSomeBind, optionBindAssoc]
      show ((indexJson is2 "properties").bind fun p => indexJson p "url").bind
        (fun url => indexJson url "default") = _
      rw [h2, h1, hbase]
      simp [indexJson, jlookup]
  | null => simp [mkTool] at h
  | bool b => simp [mkTool] at h
  | num n => simp [mkTool] at h
  | str s => simp [mkTool] at h
  | arr xs => simp [mkTool] at h

theorem genMethods_spec (baseUrl path : String) (methods : List (String × Json))
    (ts : List Json) (h : genMethods baseUrl path methods = some ts) :
    ts.map (fun t => (indexJson t "name", urlDefaultOf t)) =
      (methods.filterMap fun me =>
        if lowerStr me.1 ∈ ["get", "post", "patch", "delete"] then some (path, me.1)
        else none).map
        (fun pm => (some (Json.str (toolNameFor pm.2 pm.1)),
          some (Json.str (baseUrl ++ pm.1)))) := by
  induction methods generalizing ts with
  | nil => simp [genMethods] at h; subst h; simp
  | cons me rest ih =>
      obtain ⟨method, opJ⟩ := me
      by_cases hm : lowerStr method ∈ ["get", "post", "patch", "delete"]
      · rw [genMethods, if_pos hm] at h
        rw [optionBind_eq_some] at h
        obtain ⟨t, ht, h⟩ := h
        rw [optionBind_eq_some] at h
        obtain ⟨more, hmore, h⟩ := h
        simp only [pure, Option.some.injEq] at h
        subst h
        obtain ⟨hn, hu⟩ := mkTool_shape baseUrl path method opJ t ht
        simp only [List.map_cons, List.filterMap_cons, if_pos hm, hn, hu, ih more hmore]
      · rw [genMethods, if_neg hm] at h
        simp only [List.filterMap_cons, if_neg hm]
        exact ih ts h

theorem genPaths_spec (baseUrl : String) (paths : List (String × Json))
    (ts : List Json) (h : genPaths baseUrl paths = some ts) :
    ts.map (fun t => (indexJson t "name", urlDefaultOf t)) =
      (paths.flatMap fun pi =>
        match pi.2 with
        | Json.obj methods =>
            methods.filterMap fun me =>
              if lowerStr me.1 ∈ ["get", "post", "patch", "delete"] then some (pi.1, me.1)
              else none
        | _ => []).map
        (fun pm => (some (Json.str (toolNameFor pm.2 pm.1)),
          some (Json.str (baseUrl ++ pm.1)))) := by
  induction paths generalizing ts with
  | nil => simp [genPaths] at h; subst h; simp
  | cons pi rest ih =>
      obtain ⟨path, item⟩ := pi
      cases item with
      | obj methods =>
          rw [genPaths] at h
          rw [optionBind_eq_some] at h
          obtain ⟨ts1, hts1, h⟩ := h
          rw [optionBind_eq_some] at h
          obtain ⟨ts2, hts2, h⟩ := h
          simp only [pure, Option.some.injEq] at h
          subst h
          simp only [List.flatMap_cons, List.map_append]
          rw [genMethods_spec baseUrl path methods ts1 hts1, ih ts2 hts2]
      | null => simp [genPaths] at h
      | bool b => simp [genPaths] at h
      | num n => simp [genPaths] at h
      | str s => simp [genPaths] at h
      | arr xs => simp [genPaths] at h

/-- C1: whenever the generator returns, it emits exactly one ToolDefinition
per (path, method) pair whose method lowercases to a supported one, in
iteration order and none for other methods; each emitted tool's name is
"api_call_" + lowercased method + "_" + the slug of the path (slashes
stripped and replaced by underscores, braces removed), and its
`input_schema.properties.url.default` is the base url concatenated with the
literal path. -/
theorem c1_generator_tools (spec : Json) (baseUrl : String) (ts : List Json)
    (h : generate_tools_from_openapi spec baseUrl = some ts) :
    ts.map (fun t => (indexJson t "name", urlDefaultOf t)) =
      (qualifyingPairs spec).map (fun pm =>
        (some (Json.str (toolNameFor pm.2 pm.1)),
         some (Json.str (baseUrl ++ pm.1)))) := by
  cases spec with
  | obj skvs =>
      simp only [generate_tools_from_openapi] at h
      simp only [qualifyingPairs]
      cases hpaths : (jlookup skvs "paths").getD (Json.obj []) with
      | obj paths =>
          rw [hpaths] at h
          exact genPaths_spec baseUrl paths ts h
      | null => rw [hpaths] at h; simp at h
      | bool b => rw [hpaths] at h; simp at h
      | num n => rw [hpaths] at h; simp at h
      | str s => rw [hpaths] at h; simp at h
      | arr xs => rw [hpaths] at h; simp at h
  | null => simp [generate_tools_from_openapi] at h
  | bool b => simp [generate_tools_from_openapi] at h
  | num n => simp [generate_tools_from_openapi] at h
  | str s => simp [generate_tools_from_openapi] at h
  | arr xs => simp [generate_tools_from_openapi] at h

/-- Witness for C1 at the spec's scenario: path `/pets/{petId}` with method
`get` and base_url `http://api.example.com` yields exactly one tool, named
`api_call_get_pets_petId`, whose url default is the base url plus the literal
path. -/
theorem c1_witness :
    ([Json.obj [("name", Json.str "api_call_get_pets_petId"),
        ("description", Json.str "Info for a pet"),
        ("input_schema", Json.obj [("type", Json.str "object"),
          ("properties", Json.obj [
            ("url", Json.obj [("type", Json.str "string"),
              ("description", Json.str "URL to send the request to"),
              ("default", Json.str "http://api.example.com/pets/\x7bpetId\x7d")]),
            ("method", Json.obj [("type", Json.str "string"),
              ("description", Json.str "HTTP method to use"),
              ("enum", Json.arr [Json.str "GET"])])]),
          ("required", Json.arr [Json.str "url", Json.str "method"])])]].map
      fun t => (indexJson t "name", urlDefaultOf t)) =
      (qualifyingPairs (Json.obj [("paths", Json.obj [("/pets/\x7bpetId\x7d",
        Json.obj [("get", Json.obj [("summary", Json.str "Info for a pet")])])])])).map
        (fun pm => (some (Json.str (toolNameFor pm.2 pm.1)),
          some (Json.str ("http://api.example.com" ++ pm.1)))) ∧
    qualifyingPairs (Json.obj [("paths", Json.obj [("/pets/\x7bpetId\x7d",
        Json.obj [("get", Json.obj [("summary", Json.str "Info for a pet")])])])]) =
      [("/pets/\x7bpetId\x7d", "get")] ∧
    toolNameFor "get" "/pets/\x7bpetId\x7d" = "api_call_get_pets_petId" := by
  refine ⟨c1_generator_tools _ "http://api.example.com" _ ?_, by decide, by decide⟩
  have h1 : lowerStr "get" = "get" := by decide
  have h2 : upperStr "get" = "GET" := by decide
  have h3 : toolNameFor "get" "/pets/\x7bpetId\x7d" = "api_call_get_pets_petId" := by decide
  simp [generate_tools_from_openapi, genPaths, genMethods, mkTool, addRequestBody, addParams,
    operationDescription, baseInputSchema, jlookup, hasKey, jsonTruthy, h1, h2, h3,
    bind, Option.bind]

/-! C4: idempotence of `process_schema`.  First: the `normalJson` shape is
preserved by the dict-building operations. -/

theorem normalEntries_cons (k : String) (v : Json) (rest : List (String × Json)) :
    normalEntries ((k, v) :: rest) = (normalEntry k v && normalEntries rest) := by
  rw [normalEntries]

theorem normalEntries_setKey (acc : List (String × Json)) (k : String) (v : Json)
    (ha : normalEntries acc = true) (hv : normalEntry k v = true) :
    normalEntries (setKey acc k v) = true := by
  induction acc with
  | nil => simp [setKey, normalEntries_cons, hv, normalEntries]
  | cons hd tl ih =>
      obtain ⟨k0, v0⟩ := hd
      rw [normalEntries_cons, Bool.and_eq_true] at ha
      by_cases h0 : k0 = k
      · subst h0
        simp [setKey, normalEntries_cons, hv, ha.2]
      · simp [setKey, h0, normalEntries_cons, ha.1, ih ha.2]

theorem propsNormal_cons (k : String) (v : Json) (rest : List (String × Json)) :
    propsNormal ((k, v) :: rest) = (normalJson v && propsNormal rest) := by
  rw [propsNormal]

theorem propsNormal_setKey (acc : List (String × Json)) (k : String) (v : Json)
    (ha : propsNormal acc = true) (hv : normalJson v = true) :
    propsNormal (setKey acc k v) = true := by
  induction acc with
  | nil => simp [setKey, propsNormal_cons, hv, propsNormal]
  | cons hd tl ih =>
      obtain ⟨k0, v0⟩ := hd
      rw [propsNormal_cons, Bool.and_eq_true] at ha
      by_cases h0 : k0 = k
      · subst h0
        simp [setKey, propsNormal_cons, hv, ha.2]
      · simp [setKey, h0, propsNormal_cons, ha.1, ih ha.2]

theorem normalAcc_setKey (acc : List (String × Json)) (k : String) (v : Json)
    (ha : normalAcc acc = true) (hv : normalEntry k v = true) :
    normalAcc (setKey acc k v) = true := by
  simp only [normalAcc, Bool.and_eq_true, decide_eq_true_eq] at ha ⊢
  exact ⟨nodup_keys_setKey _ _ _ ha.1, normalEntries_setKey _ _ _ ha.2 hv⟩

theorem normPropsAcc_setKey (acc : List (String × Json)) (k : String) (v : Json)
    (ha : normPropsAcc acc = true) (hv : normalJson v = true) :
    normPropsAcc (setKey acc k v) = true := by
  simp only [normPropsAcc, Bool.and_eq_true, decide_eq_true_eq] at ha ⊢
  exact ⟨nodup_keys_setKey _ _ _ ha.1, propsNormal_setKey _ _ _ ha.2 hv⟩

theorem normalAcc_foldl (ae : List (String × Json)) :
    ∀ acc, normalAcc acc = true → normalEntries ae = true →
      normalAcc (ae.foldl (fun x kv => setKey x kv.1 kv.2) acc) = true := by
  induction ae with
  | nil => intro acc ha he; simpa using ha
  | cons hd tl ih =>
      intro acc ha he
      obtain ⟨k0, v0⟩ := hd
      rw [normalEntries_cons, Bool.and_eq_true] at he
      rw [List.foldl_cons]
      exact ih _ (normalAcc_setKey _ _ _ ha he.1) he.2

theorem normalJson_obj_iff (kvs : List (String × Json)) :
    normalJson (Json.obj kvs) = true ↔
      hasKey kvs "type" = true ∧ hasKey kvs "description" = true ∧
      (kvs.map Prod.fst).Nodup ∧ normalEntries kvs = true := by
  rw [normalJson]
  simp [Bool.and_eq_true, and_assoc]

theorem normalJson_is_obj (w : Json) (h : normalJson w = true) :
    ∃ wk, w = Json.obj wk := by
  cases w with
  | obj wk => exact ⟨wk, rfl⟩
  | null => simp [normalJson] at h
  | bool b => simp [normalJson] at h
  | num n => simp [normalJson] at h
  | str s => simp [normalJson] at h
  | arr xs => simp [normalJson] at h

theorem normalEntry_type_default : normalEntry "type" (Json.str "object") = true := by
  simp [normalEntry]

theorem normalEntry_desc_default :
    normalEntry "description" (Json.str "No description available") = true := by
  simp [normalEntry]

theorem normalEntry_other (k : String) (v : Json) (href : k ≠ "$ref")
    (h1 : k ≠ "anyOf") (h2 : k ≠ "oneOf") (h3 : k ≠ "allOf")
    (hobj : ∀ sub, v ≠ Json.obj sub) :
    normalEntry k v = true := by
  cases v with
  | obj sub => exact absurd rfl (hobj sub)
  | null => simp [normalEntry, href, h1, h2, h3]
  | bool b => simp [normalEntry, href, h1, h2, h3]
  | num n => simp [normalEntry, href, h1, h2, h3]
  | str s => simp [normalEntry, href, h1, h2, h3]
  | arr xs => simp [normalEntry, href, h1, h2, h3]

theorem defaults_normal (r0 : List (String × Json)) (h : normalAcc r0 = true)
    (r1 : List (String × Json))
    (hr1 : r1 = if hasKey r0 "type" = true then r0 else setKey r0 "type" (Json.str "object"))
    (r2 : List (String × Json))
    (hr2 : r2 = if hasKey r1 "description" = true then r1
      else setKey r1 "description" (Json.str "No description available")) :
    normalJson (Json.obj r2) = true := by
  have ha1 : normalAcc r1 = true := by
    by_cases ht : hasKey r0 "type" = true
    · rw [hr1, if_pos ht]; exact h
    · rw [hr1, if_neg ht]; exact normalAcc_setKey _ _ _ h normalEntry_type_default
  have ht1 : hasKey r1 "type" = true := by
    by_cases ht : hasKey r0 "type" = true
    · rw [hr1, if_pos ht]; exact ht
    · rw [hr1, if_neg ht]; exact hasKey_setKey_self _ _ _
  have ha2 : normalAcc r2 = true := by
    by_cases hd : hasKey r1 "description" = true
    · rw [hr2, if_pos hd]; exact ha1
    · rw [hr2, if_neg hd]; exact normalAcc_setKey _ _ _ ha1 normalEntry_desc_default
  have ht2 : hasKey r2 "type" = true := by
    by_cases hd : hasKey r1 "description" = true
    · rw [hr2, if_pos hd]; exact ht1
    · rw [hr2, if_neg hd]
      rw [hasKey_setKey_ne _ _ _ _ (by decide : ("type" : String) ≠ "description")]
      exact ht1
  have hd2 : hasKey r2 "description" = true := by
    by_cases hd : hasKey r1 "description" = true
    · rw [hr2, if_pos hd]; exact hd
    · rw [hr2, if_neg hd]; exact hasKey_setKey_self _ _ _
  rw [normalJson_obj_iff]
  simp only [normalAcc, Bool.and_eq_true, decide_eq_true_eq] at ha2
  exact ⟨ht2, hd2, ha2.1, ha2.2⟩

theorem processEntry_ref (v : Json) (d : Option Json) (acc : List (String × Json)) :
    processEntry "$ref" v d acc = some acc := by
  cases v with
  | arr xs => cases xs <;> simp [processEntry]
  | null => simp [processEntry]
  | bool b => simp [processEntry]
  | num m => simp [processEntry]
  | str s => simp [processEntry]
  | obj sub => simp [processEntry]

theorem processed_normal_aux : ∀ n : Nat,
    (∀ x r, 3 * sizeOf x ≤ n → process_schema x = some r → normalJson r = true) ∧
    (∀ l : List (String × Json), 3 * sizeOf l + 1 ≤ n → ∀ d acc r,
      processEntries l d acc = some r → normalAcc acc = true → normalAcc r = true) ∧
    (∀ v : Json, 3 * sizeOf v + 2 ≤ n → ∀ k d acc r,
      processEntry k v d acc = some r → normalAcc acc = true → normalAcc r = true) ∧
    (∀ l : List (String × Json), 3 * sizeOf l + 1 ≤ n → ∀ acc r,
      processProps l acc = some r → normPropsAcc acc = true → normPropsAcc r = true) := by
  intro n
  induction n using Nat.strong_induction_on with
  | _ n ih =>
    refine ⟨?_, ?_, ?_, ?_⟩
    · -- process_schema outputs are normal
      intro x r hsz h
      cases x with
      | obj kvs =>
          rw [process_schema, optionBind_eq_some] at h
          obtain ⟨r0, hr0, h⟩ := h
          simp only [pure, Option.some.injEq] at h
          subst h
          have hsz0 : sizeOf (Json.obj kvs) = 1 + sizeOf kvs := by simp
          have hr0n : normalAcc r0 = true := by
            refine (ih (3 * sizeOf kvs + 1) (by omega)).2.1 kvs le_rfl _ _ _ hr0 ?_
            simp [normalAcc, normalEntries]
          exact defaults_normal r0 hr0n _ rfl _ rfl
      | null => simp [process_schema] at h
      | bool b => simp [process_schema] at h
      | num m => simp [process_schema] at h
      | str s => simp [process_schema] at h
      | arr xs => simp [process_schema] at h
    · -- the key loop preserves accumulator normality
      intro l hsz d acc r h hacc
      cases l with
      | nil =>
          rw [processEntries] at h
          simp only [Option.some.injEq] at h
          rwa [← h]
      | cons hd tl =>
          obtain ⟨k, v⟩ := hd
          rw [processEntries, optionBind_eq_some] at h
          obtain ⟨acc1, h1, h2⟩ := h
          have hs : sizeOf ((k, v) :: tl) = 1 + (1 + sizeOf k + sizeOf v) + sizeOf tl := by
            simp
          have hacc1 := (ih (3 * sizeOf v + 2) (by omega)).2.2.1 v le_rfl k d acc acc1 h1 hacc
          exact (ih (3 * sizeOf tl + 1) (by omega)).2.1 tl le_rfl d acc1 r h2 hacc1
    · -- one key-loop step preserves accumulator normality
      intro v hsz k d acc r h hacc
      by_cases href : k = "$ref"
      · subst href
        rw [processEntry_ref] at h
        simp only [Option.some.injEq] at h
        rwa [← h]
      · cases v with
        | obj sub =>
            simp only [processEntry, if_neg href] at h
            have hs : sizeOf (Json.obj sub) = 1 + sizeOf sub := by simp
            by_cases hprop : k = "properties"
            · rw [if_pos hprop] at h
              rw [optionBind_eq_some] at h
              obtain ⟨props, hp, h⟩ := h
              simp only [pure, Option.some.injEq] at h
              have hpn := (ih (3 * sizeOf sub + 1) (by omega)).2.2.2 sub le_rfl [] props hp
                (by simp [normPropsAcc, propsNormal])
              have hne : normalEntry k (Json.obj props) = true := by
                subst hprop
                simp only [normPropsAcc, Bool.and_eq_true] at hpn
                simp [normalEntry, hpn.1, hpn.2]
              rw [← h]
              exact normalAcc_setKey _ _ _ hacc hne
            · rw [if_neg hprop] at h
              rw [optionBind_eq_some] at h
              obtain ⟨w, hw, h⟩ := h
              simp only [pure, Option.some.injEq] at h
              have hwn := (ih (3 * sizeOf (Json.obj sub)) (by omega)).1 (Json.obj sub) w le_rfl hw
              obtain ⟨wk, rfl⟩ := normalJson_is_obj w hwn
              have hne : normalEntry k (Json.obj wk) = true := by
                simp [normalEntry, href, hprop]
                rw [normalJson_obj_iff] at hwn
                simp [normalJson_obj_iff, hwn.1, hwn.2.1, hwn.2.2.1, hwn.2.2.2]
              rw [← h]
              exact normalAcc_setKey _ _ _ hacc hne
        | arr xs =>
            cases xs with
            | nil =>
                simp only [processEntry, if_neg href] at h
                by_cases hcomp : k = "anyOf" ∨ k = "oneOf" ∨ k = "allOf"
                · rw [if_pos hcomp] at h
                  simp only [Option.some.injEq] at h
                  rwa [← h]
                · rw [if_neg hcomp] at h
                  simp only [Option.some.injEq] at h
                  rw [← h]
                  push_neg at hcomp
                  exact normalAcc_setKey _ _ _ hacc
                    (normalEntry_other k _ href hcomp.1 hcomp.2.1 hcomp.2.2 (by intro sub hs; cases hs))
            | cons first more =>
                simp only [processEntry, if_neg href] at h
                by_cases hcomp : k = "anyOf" ∨ k = "oneOf" ∨ k = "allOf"
                · rw [if_pos hcomp] at h
                  rw [optionBind_eq_some] at h
                  obtain ⟨fo, hfo, h⟩ := h
                  have hs : sizeOf (Json.arr (first :: more)) =
                      1 + (1 + sizeOf first + sizeOf more) := by simp
                  have hfon := (ih (3 * sizeOf first) (by omega)).1 first fo le_rfl hfo
                  obtain ⟨opts, rfl⟩ := normalJson_is_obj fo hfon
                  simp only [mergeFirstOption] at h
                  rw [optionBind_eq_some] at h
                  obtain ⟨dd, hdd, h⟩ := h
                  simp only [pure, Option.some.injEq] at h
                  rw [← h]
                  rw [normalJson_obj_iff] at hfon
                  refine normalAcc_setKey _ _ _ ?_ (by simp [normalEntry])
                  exact normalAcc_foldl opts acc hacc hfon.2.2.2
                · rw [if_neg hcomp] at h
                  simp only [Option.some.injEq] at h
                  rw [← h]
                  push_neg at hcomp
                  exact normalAcc_setKey _ _ _ hacc
                    (normalEntry_other k _ href hcomp.1 hcomp.2.1 hcomp.2.2 (by intro sub hs; cases hs))
        | null =>
            simp only [processEntry, if_neg href] at h
            by_cases hcomp : k = "anyOf" ∨ k = "oneOf" ∨ k = "allOf"
            · rw [if_pos hcomp] at h
              simp only [Option.some.injEq] at h
              rwa [← h]
            · rw [if_neg hcomp] at h
              simp only [Option.some.injEq] at h
              rw [← h]
              push_neg at hcomp
              exact normalAcc_setKey _ _ _ hacc
                (normalEntry_other k _ href hcomp.1 hcomp.2.1 hcomp.2.2 (by intro sub hs; cases hs))
        | bool b =>
            simp only [processEntry, if_neg href] at h
            by_cases hcomp : k = "anyOf" ∨ k = "oneOf" ∨ k = "allOf"
            · rw [if_pos hcomp] at h
              simp only [Option.some.injEq] at h
              rwa [← h]
            · rw [if_neg hcomp] at h
              simp only [Option.some.injEq] at h
              rw [← h]
              push_neg at hcomp
              exact normalAcc_setKey _ _ _ hacc
                (normalEntry_other k _ href hcomp.1 hcomp.2.1 hcomp.2.2 (by intro sub hs; cases hs))
        | num m =>
            simp only [processEntry, if_neg href] at h
            by_cases hcomp : k = "anyOf" ∨ k = "oneOf" ∨ k = "allOf"
            · rw [if_pos hcomp] at h
              simp only [Option.some.injEq] at h
              rwa [← h]
            · rw [if_neg hcomp] at h
              simp only [Option.some.injEq] at h
              rw [← h]
              push_neg at hcomp
              exact normalAcc_setKey _ _ _ hacc
                (normalEntry_other k _ href hcomp.1 hcomp.2.1 hcomp.2.2 (by intro sub hs; cases hs))
        | str s =>
            simp only [processEntry, if_neg href] at h
            by_cases hcomp : k = "anyOf" ∨ k = "oneOf" ∨ k = "allOf"
            · rw [if_pos hcomp] at h
              simp only [Option.some.injEq] at h
              rwa [← h]
            · rw [if_neg hcomp] at h
              simp only [Option.some.injEq] at h
              rw [← h]
              push_neg at hcomp
              exact normalAcc_setKey _ _ _ hacc
                (normalEntry_other k _ href hcomp.1 hcomp.2.1 hcomp.2.2 (by intro sub hs; cases hs))
    · -- the properties sub-loop preserves accumulator normality
      intro l hsz acc r h hacc
      cases l with
      | nil =>
          rw [processProps] at h
          simp only [Option.some.injEq] at h
          rwa [← h]
      | cons hd tl =>
          obtain ⟨nm, sub⟩ := hd
          rw [processProps, optionBind_eq_some] at h
          obtain ⟨w, hw, h⟩ := h
          have hs : sizeOf ((nm, sub) :: tl) = 1 + (1 + sizeOf nm + sizeOf sub) + sizeOf tl := by
            simp
          have hwn := (ih (3 * sizeOf sub) (by omega)).1 sub w le_rfl hw
          exact (ih (3 * sizeOf tl + 1) (by omega)).2.2.2 tl le_rfl _ r h
            (normPropsAcc_setKey _ _ _ hacc hwn)

theorem processed_normal (x r : Json) (h : process_schema x = some r) :
    normalJson r = true :=
  (processed_normal_aux (3 * sizeOf x)).1 x r le_rfl h

theorem normal_fix_aux : ∀ n : Nat,
    (∀ j, 3 * sizeOf j ≤ n → normalJson j = true → process_schema j = some j) ∧
    (∀ l : List (String × Json), 3 * sizeOf l + 1 ≤ n → ∀ d acc,
      normalEntries l = true → (l.map Prod.fst).Nodup →
      (∀ k, k ∈ l.map Prod.fst → hasKey acc k = false) →
      processEntries l d acc = some (acc ++ l)) ∧
    (∀ v : Json, 3 * sizeOf v + 2 ≤ n → ∀ k d acc,
      normalEntry k v = true → hasKey acc k = false →
      processEntry k v d acc = some (acc ++ [(k, v)])) ∧
    (∀ l : List (String × Json), 3 * sizeOf l + 1 ≤ n → ∀ acc,
      propsNormal l = true → (l.map Prod.fst).Nodup →
      (∀ k, k ∈ l.map Prod.fst → hasKey acc k = false) →
      processProps l acc = some (acc ++ l)) := by
  intro n
  induction n using Nat.strong_induction_on with
  | _ n ih =>
    refine ⟨?_, ?_, ?_, ?_⟩
    · -- normal fragments are fixed points of process_schema
      intro j hsz hn
      obtain ⟨kvs, rfl⟩ := normalJson_is_obj j hn
      rw [normalJson_obj_iff] at hn
      obtain ⟨ht, hd, hnd, hne⟩ := hn
      have hsz0 : sizeOf (Json.obj kvs) = 1 + sizeOf kvs := by simp
      have hE := (ih (3 * sizeOf kvs + 1) (by omega)).2.1 kvs le_rfl
        (jlookup kvs "description") [] hne hnd (by intro k _; simp [hasKey, jlookup])
      rw [process_schema, hE]
      simp [ht, hd, bind, Option.bind, pure]
    · -- the key loop rebuilds a normal dict over a disjoint accumulator
      intro l hsz d acc hne hnd hdisj
      cases l with
      | nil => simp [processEntries]
      | cons hd0 tl =>
          obtain ⟨k, v⟩ := hd0
          rw [normalEntries_cons, Bool.and_eq_true] at hne
          simp only [List.map_cons] at hnd
          rw [List.nodup_cons] at hnd
          obtain ⟨hkmem, hnd'⟩ := hnd
          have hs : sizeOf ((k, v) :: tl) = 1 + (1 + sizeOf k + sizeOf v) + sizeOf tl := by
            simp
          have hk : hasKey acc k = false := hdisj k (by simp)
          have hstep := (ih (3 * sizeOf v + 2) (by omega)).2.2.1 v le_rfl k d acc hne.1 hk
          rw [processEntries, hstep, optionSomeBind]
          have hdisj' : ∀ k', k' ∈ tl.map Prod.fst → hasKey (acc ++ [(k, v)]) k' = false := by
            intro k' hk'
            rw [hasKey_append]
            have h1 : hasKey acc k' = false := hdisj k' (by simp [hk'])
            have hkk : k ≠ k' := fun heq => hkmem (heq ▸ hk')
            have h2 : hasKey [(k, v)] k' = false := by simp [hasKey, jlookup, hkk]
            rw [h1, h2]
            rfl
          have hrec := (ih (3 * sizeOf tl + 1) (by omega)).2.1 tl le_rfl d
            (acc ++ [(k, v)]) hne.2 hnd' hdisj'
          rw [hrec]
          simp
    · -- one key-loop step appends the unchanged entry
      intro v hsz k d acc hent hacc
      by_cases href : k = "$ref"
      · subst href
        cases v <;> simp [normalEntry] at hent
      · cases v with
        | obj sub =>
            have hs : sizeOf (Json.obj sub) = 1 + sizeOf sub := by simp
            by_cases hprop : k = "properties"
            · subst hprop
              simp only [normalEntry, if_neg href, Bool.and_eq_true, decide_eq_true_eq,
                if_pos rfl, if_true, eq_self_iff_true] at hent
              have hP := (ih (3 * sizeOf sub + 1) (by omega)).2.2.2 sub le_rfl [] hent.2
                hent.1 (by intro k _; simp [hasKey, jlookup])
              simp only [List.nil_append] at hP
              simp only [processEntry, if_neg href, if_pos rfl, if_true, eq_self_iff_true]
              rw [hP, optionSomeBind, setKey_of_not_hasKey _ _ _ hacc]
              rfl
            · have hent' : normalJson (Json.obj sub) = true := by
                simpa [normalEntry, href, hprop] using hent
              have hJ := (ih (3 * sizeOf (Json.obj sub)) (by omega)).1 (Json.obj sub)
                le_rfl hent'
              simp only [processEntry, if_neg href, if_neg hprop]
              rw [hJ, optionSomeBind, setKey_of_not_hasKey _ _ _ hacc]
              rfl
        | arr xs =>
            have hcomp : ¬(k = "anyOf" ∨ k = "oneOf" ∨ k = "allOf") := by
              rintro (rfl | rfl | rfl) <;> simp [normalEntry, href] at hent
            cases xs with
            | nil =>
                simp only [processEntry, if_neg href, if_neg hcomp]
                rw [setKey_of_not_hasKey _ _ _ hacc]
            | cons first more =>
                simp only [processEntry, if_neg href, if_neg hcomp]
                rw [setKey_of_not_hasKey _ _ _ hacc]
        | null =>
            have hcomp : ¬(k = "anyOf" ∨ k = "oneOf" ∨ k = "allOf") := by
              rintro (rfl | rfl | rfl) <;> simp [normalEntry, href] at hent
            simp only [processEntry, if_neg href, if_neg hcomp]
            rw [setKey_of_not_hasKey _ _ _ hacc]
        | bool b =>
            have hcomp : ¬(k = "anyOf" ∨ k = "oneOf" ∨ k = "allOf") := by
              rintro (rfl | rfl | rfl) <;> simp [normalEntry, href] at hent
            simp only [processEntry, if_neg href, if_neg hcomp]
            rw [setKey_of_not_hasKey _ _ _ hacc]
        | num m =>
            have hcomp : ¬(k = "anyOf" ∨ k = "oneOf" ∨ k = "allOf") := by
              rintro (rfl | rfl | rfl) <;> simp [normalEntry, href] at hent
            simp only [processEntry, if_neg href, if_neg hcomp]
            rw [setKey_of_not_hasKey _ _ _ hacc]
        | str s =>
            have hcomp : ¬(k = "anyOf" ∨ k = "oneOf" ∨ k = "allOf") := by
              rintro (rfl | rfl | rfl) <;> simp [normalEntry, href] at hent
            simp only [processEntry, if_neg href, if_neg hcomp]
            rw [setKey_of_not_hasKey _ _ _ hacc]
    · -- the properties loop rebuilds itself
      intro l hsz acc hpn hnd hdisj
      cases l with
      | nil => simp [processProps]
      | cons hd0 tl =>
          obtain ⟨nm, sub⟩ := hd0
          rw [propsNormal_cons, Bool.and_eq_true] at hpn
          simp only [List.map_cons] at hnd
          rw [List.nodup_cons] at hnd
          obtain ⟨hkmem, hnd'⟩ := hnd
          have hs : sizeOf ((nm, sub) :: tl) = 1 + (1 + sizeOf nm + sizeOf sub) + sizeOf tl := by
            simp
          have hJ := (ih (3 * sizeOf sub) (by omega)).1 sub le_rfl hpn.1
          rw [processProps, hJ, optionSomeBind]
          have hk : hasKey acc nm = false := hdisj nm (by simp)
          rw [setKey_of_not_hasKey _ _ _ hk]
          have hdisj' : ∀ k', k' ∈ tl.map Prod.fst →
              hasKey (acc ++ [(nm, sub)]) k' = false := by
            intro k' hk'
            rw [hasKey_append]
            have h1 : hasKey acc k' = false := hdisj k' (by simp [hk'])
            have hkk : nm ≠ k' := fun heq => hkmem (heq ▸ hk')
            have h2 : hasKey [(nm, sub)] k' = false := by simp [hasKey, jlookup, hkk]
            rw [h1, h2]
            rfl
          have hrec := (ih (3 * sizeOf tl + 1) (by omega)).2.2.2 tl le_rfl
            (acc ++ [(nm, sub)]) hpn.2 hnd' hdisj'
          rw [hrec]
          simp

theorem normal_fixpoint (j : Json) (h : normalJson j = true) :
    process_schema j = some j :=
  (normal_fix_aux (3 * sizeOf j)).1 j le_rfl h

/-- C4: the Normalizer is idempotent: whenever `process_schema` returns a
fragment, normalizing that fragment again returns it unchanged, so
normalize(normalize(x)) = normalize(x). -/
theorem c4_normalize_idempotent (x y : Json) (h : process_schema x = some y) :
    process_schema y = some y :=
  normal_fixpoint y (processed_normal x y h)

/-- Witness for C4 at a concrete fragment: the normalization of the empty
fragment is a fixed point of the Normalizer. -/
theorem c4_witness :
    process_schema (Json.obj [("type", Json.str "object"),
      ("description", Json.str "No description available")]) =
      some (Json.obj [("type", Json.str "object"),
        ("description", Json.str "No description available")]) :=
  c4_normalize_idempotent (Json.obj []) _
    (by simp [process_schema, processEntries, hasKey, jlookup, setKey])

/-- C10: every Schema Fragment returned by the Normalizer (`process_schema`)
has both a `type` and a `description` key; the final defaulting step fills
`"object"` and `"No description available"` when the processed result lacks
them. -/
theorem c10_normalized_has_type_and_description (x y : Json)
    (h : process_schema x = some y) :
    ∃ r, y = Json.obj r ∧ hasKey r "type" = true ∧ hasKey r "description" = true :=
  processed_obj_shape x y h

/-- Witness for C10 at the empty fragment: both defaults fire. -/
theorem c10_witness :
    ∃ r, Json.obj [("type", Json.str "object"),
                   ("description", Json.str "No description available")] = Json.obj r ∧
      hasKey r "type" = true ∧ hasKey r "description" = true :=
  c10_normalized_has_type_and_description (Json.obj []) _
    (by simp [process_schema, processEntries, hasKey, jlookup, setKey])

end OpenapiAgentTools
